import Mathlib

/-!
Verification of the rsdic rank/select dictionary (Go package `rsdic`).

The Go source is shallowly embedded: `uint64` values are `Nat` with explicit
`% 2^64` where wraparound can occur, `uint8` casts are `% 256`, slices are
`List Nat`, and the struct `RSDic` is a Lean structure.  The enumerative
block codec (`enumCode.go`) is not part of the provided sources; its
functions are modelled from the specification (spec §4.2) and marked as
such in their doc comments.
-/

namespace Rsdic

/-- Source `floor` (utils.go): `(num + div - 1) / div`, a ceiling division. -/
def floor (num div : Nat) : Nat := (num + div - 1) / div

/-- Source `decompose` (utils.go): quotient and remainder. -/
def decompose (x y : Nat) : Nat × Nat := (x / y, x % y)

/-- Go `uint64` subtraction `a - b` for `a, b < 2^64` (wraps on underflow). -/
def wrapSub (a b : Nat) : Nat := if b ≤ a then a - b else 2 ^ 64 + a - b

/-- Source `getBit` (utils.go): `((x >> pos) & 1) == 1`. -/
def getBit (x : Nat) (pos : Nat) : Bool := ((x >>> pos) &&& 1) == 1

/-- Source `setSlice` (utils.go): OR the low `codeLen` bits of `val` into the
packed word array at absolute bit offset `pos`. -/
def setSlice (bits : List Nat) (pos : Nat) (codeLen : Nat) (val : Nat) : List Nat :=
  if codeLen = 0 then bits
  else
    let block := (decompose pos 64).1
    let offset := (decompose pos 64).2
    let bits1 := bits.set block (bits.getD block 0 ||| (val <<< offset) % 2 ^ 64)
    if offset + codeLen > 64 then
      bits1.set (block + 1) (bits1.getD (block + 1) 0 ||| val >>> (64 - offset))
    else bits1

/-- Source `getSlice` (utils.go): read the `codeLen`-bit field at absolute bit
offset `pos` from the packed word array. -/
def getSlice (bits : List Nat) (pos : Nat) (codeLen : Nat) : Nat :=
  if codeLen = 0 then 0
  else
    let block := (decompose pos 64).1
    let offset := (decompose pos 64).2
    let ret := bits.getD block 0 >>> offset
    let ret := if offset + codeLen > 64 then
        ret ||| (bits.getD (block + 1) 0 <<< (64 - offset)) % 2 ^ 64
      else ret
    if codeLen = 64 then ret else ret % 2 ^ codeLen

/-- Source `bitNum` (utils.go): convert a one-count `x` over `n` positions to
the count for polarity `b`. -/
def bitNum (x n : Nat) (b : Bool) : Nat := if b then x else wrapSub n x

/-- Go `bits.OnesCount64`: number of set bits among the low 64 bits. -/
def onesCount64 (x : Nat) : Nat := ((List.range 64).map (fun i => x.testBit i)).count true

/-- Little-endian value of a bit list: element `i` is bit `i`. -/
def natOfBits : List Bool → Nat
  | [] => 0
  | b :: rest => (if b then 1 else 0) + 2 * natOfBits rest

/-- Low `len` bits of a natural number as a bit list (element `i` is bit `i`). -/
def bitsOfNat (len : Nat) (w : Nat) : List Bool := (List.range len).map (fun i => w.testBit i)

/-- Position (0-based) of the `(k+1)`-th occurrence of `b`, or the length of
the list when there is no such occurrence. -/
def selIdx (b : Bool) : List Bool → Nat → Nat
  | [], _ => 0
  | x :: rest, k =>
    if x = b then (if k = 0 then 0 else 1 + selIdx b rest (k - 1))
    else 1 + selIdx b rest k

/-- Modelled from the spec (§4.2, the missing enumCode.go): binomial
coefficient `C n k`, computed by the exact stepwise product so that concrete
instances evaluate fast. -/
def comb (n k : Nat) : Nat := (List.range k).foldl (fun acc i => acc * (n - i) / (i + 1)) 1

/-- Modelled from the spec (§4.2): `⌈log₂ n⌉` for `n ≤ 2^64`, i.e. the least
`L` with `n ≤ 2^L` (64-entry search, structurally evaluable). -/
def ceilLog2 (n : Nat) : Nat := List.findIdx (fun L => n ≤ 2 ^ L) (List.range 65)

/-- Modelled from the spec (§4.2 and constants.go `useRawLen = 48`, the
missing enumCode.go): `codeLen[c] = ⌈log₂ C(64,c)⌉`, replaced by 64 (raw
block) when that exceeds the raw threshold 48. -/
def enumCodeLength (c : Nat) : Nat :=
  let L := ceilLog2 (comb 64 c)
  if 48 < L then 64 else L

/-- Modelled from the spec (§4.2): combinadic rank of a bit list.  Scanning
from the low position, a set bit at suffix length `ℓ` with `r` ones remaining
(current one included) contributes `C (ℓ-1) r`. -/
def encBits : List Bool → Nat
  | [] => 0
  | b :: rest => if b then comb rest.length (rest.count true + 1) + encBits rest else encBits rest

/-- Modelled from the spec (§4.2): combinadic unranking.  At suffix length
`ℓ` with `r` ones remaining, the next bit is 1 iff `code ≥ C (ℓ-1) r`; if so
subtract and decrement `r`. -/
def decBits : Nat → Nat → Nat → List Bool
  | 0, _, _ => []
  | l + 1, r, code =>
    if comb l r ≤ code then true :: decBits l (r - 1) (code - comb l r)
    else false :: decBits l r code

/-- Modelled from the spec (§4.2, missing enumCode.go): `enumEncode(w, c)`
returns the combinadic codeword of `w`, or `w` unchanged when
`codeLen[c] = 64` (raw block). -/
def enumEncode (val : Nat) (c : Nat) : Nat :=
  if enumCodeLength c = 64 then val else encBits (bitsOfNat 64 val)

/-- Modelled from the spec (§4.2, missing enumCode.go): decode a codeword
with popcount `c` back to the 64-bit block. -/
def enumDecode (code : Nat) (c : Nat) : Nat :=
  if enumCodeLength c = 64 then code else natOfBits (decBits 64 c code)

/-- Modelled from the spec (§4.2, missing enumCode.go): `enumBit(code, c, j)`
returns bit `j` of the decoded block. -/
def enumBit (code : Nat) (c : Nat) (pos : Nat) : Bool := getBit (enumDecode code c) pos

/-- Modelled from the spec (§4.2, missing enumCode.go): `enumRank(code, c, j)`
returns the popcount of the decoded block's first `j` bits. -/
def enumRank (code : Nat) (c : Nat) (pos : Nat) : Nat :=
  ((bitsOfNat 64 (enumDecode code c)).take pos).count true

/-- Modelled from the spec (§4.2, missing enumCode.go): position of the
`k`-th one (`k` 1-based) in the decoded block. -/
def enumSelect1 (code : Nat) (c : Nat) (k : Nat) : Nat :=
  selIdx true (bitsOfNat 64 (enumDecode code c)) (k - 1)

/-- Modelled from the spec (§4.2, missing enumCode.go): position of the
`k`-th zero (`k` 1-based) in the decoded block. -/
def enumSelect0 (code : Nat) (c : Nat) (k : Nat) : Nat :=
  selIdx false (bitsOfNat 64 (enumDecode code c)) (k - 1)

/-- Modelled from the spec (§4.1, missing enumCode.go): 0-based position of
the `k`-th (`k` 1-based) set bit of a 64-bit word. -/
def selectRaw (x : Nat) (k : Nat) : Nat := selIdx true (bitsOfNat 64 x) (k - 1)

/-- The `RSDic` struct (rsdic.go).  `uint64` fields are `Nat`, slices are
`List Nat` (with `uint8` entries of `rankSmallBlocks` stored `% 256`). -/
structure RSDic where
  bits : List Nat
  pointerBlocks : List Nat
  rankBlocks : List Nat
  selectOneInds : List Nat
  selectZeroInds : List Nat
  rankSmallBlocks : List Nat
  num : Nat
  oneNum : Nat
  zeroNum : Nat
  lastBlock : Nat
  lastOneNum : Nat
  lastZeroNum : Nat
  codeLen : Nat
deriving DecidableEq, Repr

/-- Source `New` (rsdic.go): the empty dictionary. -/
def New : RSDic :=
  { bits := [], pointerBlocks := [], rankBlocks := [], selectOneInds := []
    selectZeroInds := [], rankSmallBlocks := [], num := 0, oneNum := 0
    zeroNum := 0, lastBlock := 0, lastOneNum := 0, lastZeroNum := 0, codeLen := 0 }

/-- Source `writeBlock` (rsdic.go): flush the pending small block into the
packed bitstream (when `num > 0`) and append a large-block index entry when
`num` is a multiple of 1024. -/
def writeBlock (rs : RSDic) : RSDic :=
  let rs :=
    if rs.num > 0 then
      let rankSB := rs.lastOneNum % 256
      let codeLen := enumCodeLength rankSB
      let code := enumEncode rs.lastBlock rankSB
      let newSize := floor (rs.codeLen + codeLen) 64
      let bits1 := if newSize > rs.bits.length then rs.bits ++ [0] else rs.bits
      { rs with
        rankSmallBlocks := rs.rankSmallBlocks ++ [rankSB]
        bits := setSlice bits1 rs.codeLen codeLen code
        lastBlock := 0
        lastZeroNum := 0
        lastOneNum := 0
        codeLen := rs.codeLen + codeLen }
    else rs
  if rs.num % 1024 = 0 then
    { rs with
      rankBlocks := rs.rankBlocks ++ [rs.oneNum]
      pointerBlocks := rs.pointerBlocks ++ [rs.codeLen] }
  else rs

/-- Source `PushBack` (rsdic.go): append one bit. -/
def PushBack (rs : RSDic) (bit : Bool) : RSDic :=
  let rs := if rs.num % 64 = 0 then writeBlock rs else rs
  let rs :=
    if bit then
      let rs := { rs with lastBlock := rs.lastBlock ||| 1 <<< (rs.num % 64) }
      let rs :=
        if rs.oneNum % 4096 = 0 then
          { rs with selectOneInds := rs.selectOneInds ++ [rs.num / 1024] }
        else rs
      { rs with oneNum := rs.oneNum + 1, lastOneNum := rs.lastOneNum + 1 }
    else
      let rs :=
        if rs.zeroNum % 4096 = 0 then
          { rs with selectZeroInds := rs.selectZeroInds ++ [rs.num / 1024] }
        else rs
      { rs with zeroNum := rs.zeroNum + 1, lastZeroNum := rs.lastZeroNum + 1 }
  { rs with num := rs.num + 1 }

/-- The dictionary built by pushing the bits of `bs` in order onto `New`. -/
def rsdicOf (bs : List Bool) : RSDic := bs.foldl PushBack New

/-- Source `lastBlockInd` (rsdic.go): first position of the pending block. -/
def lastBlockInd (rs : RSDic) : Nat :=
  if rs.num = 0 then 0 else (rs.num - 1) / 64 * 64

/-- Source `isLastBlock` (rsdic.go). -/
def isLastBlock (rs : RSDic) (pos : Nat) : Bool := pos ≥ lastBlockInd rs

/-- Source `Bit` (rsdic.go): the bit at position `pos`. -/
def Bit (rs : RSDic) (pos : Nat) : Bool :=
  if isLastBlock rs pos then getBit rs.lastBlock (pos % 64)
  else
    let lblock := pos / 1024
    let sblock := pos / 64
    let pointer := (List.range' (lblock * 16) (sblock - lblock * 16)).foldl
      (fun p i => p + enumCodeLength (rs.rankSmallBlocks.getD i 0))
      (rs.pointerBlocks.getD lblock 0)
    let rankSB := rs.rankSmallBlocks.getD sblock 0
    let code := getSlice rs.bits pointer (enumCodeLength rankSB)
    enumBit code rankSB (pos % 64)

/-- Source `Rank` (rsdic.go): number of `bit`s in positions `[0, pos)`,
clamped to the total count when `pos ≥ num`. -/
def Rank (rs : RSDic) (pos : Nat) (bit : Bool) : Nat :=
  if pos ≥ rs.num then bitNum rs.oneNum rs.num bit
  else if isLastBlock rs pos then
    let afterRank := onesCount64 (rs.lastBlock >>> (pos % 64))
    bitNum (wrapSub rs.oneNum afterRank) pos bit
  else
    let lblock := pos / 1024
    let sblock := pos / 64
    let pr := (List.range' (lblock * 16) (sblock - lblock * 16)).foldl
      (fun (pr : Nat × Nat) i =>
        (pr.1 + enumCodeLength (rs.rankSmallBlocks.getD i 0), pr.2 + rs.rankSmallBlocks.getD i 0))
      (rs.pointerBlocks.getD lblock 0, rs.rankBlocks.getD lblock 0)
    if pos % 64 = 0 then bitNum pr.2 pos bit
    else
      let rankSB := rs.rankSmallBlocks.getD sblock 0
      let code := getSlice rs.bits pr.1 (enumCodeLength rankSB)
      bitNum (pr.2 + enumRank code rankSB (pos % 64)) pos bit

/-- The large-block scan of `Select1` (rsdic.go lines 181-185): advance
`lblock` while `rank ≥ rankBlocks[lblock]`, stopping at the array end; the
fuel argument is `rankBlocks.length - lblock`. -/
def select1LLoop (rbs : List Nat) (rank : Nat) : Nat → Nat → Nat
  | 0, lblock => lblock
  | fuel + 1, lblock =>
    if rank < rbs.getD lblock 0 then lblock else select1LLoop rbs rank fuel (lblock + 1)

/-- The small-block scan of `Select1` (rsdic.go lines 190-197): walk small
blocks subtracting their one-counts from `remain` and advancing `pointer`;
returns `(sblock, remain, pointer)`. -/
def select1SLoop (rsbs : List Nat) : Nat → Nat → Nat → Nat → Nat × Nat × Nat
  | 0, sblock, remain, pointer => (sblock, remain, pointer)
  | fuel + 1, sblock, remain, pointer =>
    let rankSB := rsbs.getD sblock 0
    if remain ≤ rankSB then (sblock, remain, pointer)
    else select1SLoop rsbs fuel (sblock + 1) (remain - rankSB) (pointer + enumCodeLength rankSB)

/-- Source `Select1` (rsdic.go): position of the `(rank+1)`-th one. -/
def Select1 (rs : RSDic) (rank : Nat) : Nat :=
  if rank ≥ rs.oneNum then rs.num
  else if rank ≥ wrapSub rs.oneNum rs.lastOneNum then
    let lastBlockRank := (rank - wrapSub rs.oneNum rs.lastOneNum) % 256
    lastBlockInd rs + selectRaw rs.lastBlock (lastBlockRank + 1)
  else
    let selectInd := rank / 4096
    let lblock0 := rs.selectOneInds.getD selectInd 0
    let lblock := select1LLoop rs.rankBlocks rank (rs.rankBlocks.length - lblock0) lblock0
    let lblock := wrapSub lblock 1
    let pointer := rs.pointerBlocks.getD lblock 0
    let remain := (wrapSub rank (rs.rankBlocks.getD lblock 0) + 1) % 2 ^ 64
    let srp := select1SLoop rs.rankSmallBlocks (rs.rankSmallBlocks.length - lblock * 16)
      (lblock * 16) remain pointer
    let rankSB := rs.rankSmallBlocks.getD srp.1 0
    let code := getSlice rs.bits srp.2.2 (enumCodeLength rankSB)
    srp.1 * 64 + enumSelect1 code rankSB (srp.2.1 % 256)

/-- The large-block scan of `Select0` (rsdic.go lines 214-218): advance
`lblock` while `rank ≥ lblock*1024 - rankBlocks[lblock]`. -/
def select0LLoop (rbs : List Nat) (rank : Nat) : Nat → Nat → Nat
  | 0, lblock => lblock
  | fuel + 1, lblock =>
    if rank < wrapSub (lblock * 1024 % 2 ^ 64) (rbs.getD lblock 0) then lblock
    else select0LLoop rbs rank fuel (lblock + 1)

/-- The small-block scan of `Select0` (rsdic.go lines 223-230): like
`select1SLoop` with the zero-count `64 - rankSmallBlocks[sblock]` (a `uint8`
subtraction). -/
def select0SLoop (rsbs : List Nat) : Nat → Nat → Nat → Nat → Nat × Nat × Nat
  | 0, sblock, remain, pointer => (sblock, remain, pointer)
  | fuel + 1, sblock, remain, pointer =>
    let rankSB := (256 + 64 - rsbs.getD sblock 0) % 256
    if remain ≤ rankSB then (sblock, remain, pointer)
    else select0SLoop rsbs fuel (sblock + 1) (remain - rankSB) (pointer + enumCodeLength rankSB)

/-- Source `Select0` (rsdic.go): position of the `(rank+1)`-th zero. -/
def Select0 (rs : RSDic) (rank : Nat) : Nat :=
  if rank ≥ rs.zeroNum then rs.num
  else if rank ≥ wrapSub rs.zeroNum rs.lastZeroNum then
    let lastBlockRank := (rank - wrapSub rs.zeroNum rs.lastZeroNum) % 256
    lastBlockInd rs + selectRaw (2 ^ 64 - 1 - rs.lastBlock % 2 ^ 64) (lastBlockRank + 1)
  else
    let selectInd := rank / 4096
    let lblock0 := rs.selectZeroInds.getD selectInd 0
    let lblock := select0LLoop rs.rankBlocks rank (rs.rankBlocks.length - lblock0) lblock0
    let lblock := wrapSub lblock 1
    let pointer := rs.pointerBlocks.getD lblock 0
    let remain := ((wrapSub rank (lblock * 1024 % 2 ^ 64) + rs.rankBlocks.getD lblock 0 + 1)) % 2 ^ 64
    let srp := select0SLoop rs.rankSmallBlocks (rs.rankSmallBlocks.length - lblock * 16)
      (lblock * 16) remain pointer
    let rankSB := rs.rankSmallBlocks.getD srp.1 0
    let code := getSlice rs.bits srp.2.2 (enumCodeLength rankSB)
    srp.1 * 64 + enumSelect0 code rankSB (srp.2.1 % 256)

/-- Source `Select` (rsdic.go). -/
def Select (rs : RSDic) (rank : Nat) (bit : Bool) : Nat :=
  if bit then Select1 rs rank else Select0 rs rank

/-- Source `BitAndRank` (rsdic.go): the bit at `pos` together with the rank
of that bit at `pos`, sharing one decode. -/
def BitAndRank (rs : RSDic) (pos : Nat) : Bool × Nat :=
  if isLastBlock rs pos then
    let offset := pos % 64
    let bit := getBit rs.lastBlock offset
    let afterRank := onesCount64 (rs.lastBlock >>> offset)
    (bit, bitNum (wrapSub rs.oneNum afterRank) pos bit)
  else
    let lblock := pos / 1024
    let sblock := pos / 64
    let pr := (List.range' (lblock * 16) (sblock - lblock * 16)).foldl
      (fun (pr : Nat × Nat) i =>
        (pr.1 + enumCodeLength (rs.rankSmallBlocks.getD i 0), pr.2 + rs.rankSmallBlocks.getD i 0))
      (rs.pointerBlocks.getD lblock 0, rs.rankBlocks.getD lblock 0)
    let rankSB := rs.rankSmallBlocks.getD sblock 0
    let code := getSlice rs.bits pr.1 (enumCodeLength rankSB)
    let rank := pr.2 + enumRank code rankSB (pos % 64)
    let bit := enumBit code rankSB (pos % 64)
    (bit, bitNum rank pos bit)

/-- One encoded value of the serialization adapter (spec §6): the msgpack
layer is modelled as a self-delimiting sequence of typed values, one per
`Encode`/`Decode` call. -/
inductive MPVal where
  | u64Arr (l : List Nat)
  | u8Arr (l : List Nat)
  | u64 (n : Nat)
deriving DecidableEq, Repr

/-- Source `MarshalBinary` (rsdic.go): the 13 fields, in order, each emitted
through the serialization adapter. -/
def MarshalBinary (rs : RSDic) : List MPVal :=
  [MPVal.u64Arr rs.bits, MPVal.u64Arr rs.pointerBlocks, MPVal.u64Arr rs.rankBlocks,
   MPVal.u64Arr rs.selectOneInds, MPVal.u64Arr rs.selectZeroInds,
   MPVal.u8Arr rs.rankSmallBlocks,
   MPVal.u64 rs.num, MPVal.u64 rs.oneNum, MPVal.u64 rs.zeroNum,
   MPVal.u64 rs.lastBlock, MPVal.u64 rs.lastOneNum, MPVal.u64 rs.lastZeroNum,
   MPVal.u64 rs.codeLen]

/-- Source `UnmarshalBinary` (rsdic.go): decode the 13 values in the same
order; any mismatch is a decode error (`none`). -/
def UnmarshalBinary (input : List MPVal) : Option RSDic :=
  match input with
  | [MPVal.u64Arr bits, MPVal.u64Arr pointerBlocks, MPVal.u64Arr rankBlocks,
     MPVal.u64Arr selectOneInds, MPVal.u64Arr selectZeroInds,
     MPVal.u8Arr rankSmallBlocks,
     MPVal.u64 num, MPVal.u64 oneNum, MPVal.u64 zeroNum,
     MPVal.u64 lastBlock, MPVal.u64 lastOneNum, MPVal.u64 lastZeroNum,
     MPVal.u64 codeLen] =>
    some { bits, pointerBlocks, rankBlocks, selectOneInds, selectZeroInds,
           rankSmallBlocks, num, oneNum, zeroNum, lastBlock, lastOneNum,
           lastZeroNum, codeLen }
  | _ => none

/-- In-bounds condition for the word reads of `getSlice` (utils): a
zero-length read touches nothing; otherwise the word holding `pos` is read,
and the following word as well when the field straddles a word boundary. -/
def sliceAccessSafe (bits : List Nat) (pos : Nat) (len : Nat) : Prop :=
  len = 0 ∨ (if pos % 64 + len > 64 then pos / 64 + 1 else pos / 64) < bits.length

/-- The pointer value `Bit` and `BitAndRank` reach after their small-block
walk (rsdic.go). -/
def bitPointer (rs : RSDic) (pos : Nat) : Nat :=
  (List.range' (pos / 1024 * 16) (pos / 64 - pos / 1024 * 16)).foldl
    (fun p i => p + enumCodeLength (rs.rankSmallBlocks.getD i 0))
    (rs.pointerBlocks.getD (pos / 1024) 0)

/-- Every index `Bit` (rsdic.go) touches is in range: either only the
scalar `lastBlock` is read, or `pos < num` and the `pointerBlocks`,
`rankSmallBlocks` and `bits` accesses are all in bounds. -/
def BitAccessSafe (rs : RSDic) (pos : Nat) : Prop :=
  isLastBlock rs pos = true ∨
    (pos < rs.num ∧ pos / 1024 < rs.pointerBlocks.length ∧
      pos / 64 < rs.rankSmallBlocks.length ∧
      sliceAccessSafe rs.bits (bitPointer rs pos)
        (enumCodeLength (rs.rankSmallBlocks.getD (pos / 64) 0)))

/-- Every index `BitAndRank` (rsdic.go) touches is in range (it
additionally reads `rankBlocks`). -/
def BitAndRankAccessSafe (rs : RSDic) (pos : Nat) : Prop :=
  isLastBlock rs pos = true ∨
    (pos < rs.num ∧ pos / 1024 < rs.pointerBlocks.length ∧
      pos / 1024 < rs.rankBlocks.length ∧ pos / 64 < rs.rankSmallBlocks.length ∧
      sliceAccessSafe rs.bits (bitPointer rs pos)
        (enumCodeLength (rs.rankSmallBlocks.getD (pos / 64) 0)))

/-- Every index the main path of `Select1` (rsdic.go) touches is in range:
the sample lookup, the decrement of the large-block scan result (no
underflow), the `pointerBlocks`/`rankBlocks` reads, the small-block scan
exit (found by `break`, not by running off the array), and the final slice
read. -/
def Select1AccessSafe (rs : RSDic) (rank : Nat) : Prop :=
  let lblock0 := rs.selectOneInds.getD (rank / 4096) 0
  let lt := select1LLoop rs.rankBlocks rank (rs.rankBlocks.length - lblock0) lblock0
  let lblock := wrapSub lt 1
  let remain := (wrapSub rank (rs.rankBlocks.getD lblock 0) + 1) % 2 ^ 64
  let srp := select1SLoop rs.rankSmallBlocks (rs.rankSmallBlocks.length - lblock * 16)
    (lblock * 16) remain (rs.pointerBlocks.getD lblock 0)
  rank / 4096 < rs.selectOneInds.length ∧ 1 ≤ lt ∧
    lblock < rs.pointerBlocks.length ∧ lblock < rs.rankBlocks.length ∧
    srp.1 < rs.rankSmallBlocks.length ∧
    sliceAccessSafe rs.bits srp.2.2 (enumCodeLength (rs.rankSmallBlocks.getD srp.1 0))

/-- Every index the main path of `Select0` (rsdic.go) touches is in
range. -/
def Select0AccessSafe (rs : RSDic) (rank : Nat) : Prop :=
  let lblock0 := rs.selectZeroInds.getD (rank / 4096) 0
  let lt := select0LLoop rs.rankBlocks rank (rs.rankBlocks.length - lblock0) lblock0
  let lblock := wrapSub lt 1
  let remain := ((wrapSub rank (lblock * 1024 % 2 ^ 64) + rs.rankBlocks.getD lblock 0 + 1)) %
    2 ^ 64
  let srp := select0SLoop rs.rankSmallBlocks (rs.rankSmallBlocks.length - lblock * 16)
    (lblock * 16) remain (rs.pointerBlocks.getD lblock 0)
  rank / 4096 < rs.selectZeroInds.length ∧ 1 ≤ lt ∧
    lblock < rs.pointerBlocks.length ∧ lblock < rs.rankBlocks.length ∧
    srp.1 < rs.rankSmallBlocks.length ∧
    sliceAccessSafe rs.bits srp.2.2 (enumCodeLength (rs.rankSmallBlocks.getD srp.1 0))

/-! ### Bit-list / natural-number bridges -/

theorem testBit_natOfBits (l : List Bool) (i : Nat) :
    (natOfBits l).testBit i = l.getD i false := by
  induction l generalizing i with
  | nil => simp [natOfBits]
  | cons b t ih =>
    cases i with
    | zero =>
      simp only [natOfBits, Nat.testBit_zero, List.getD_cons_zero]
      cases b <;> simp [Nat.add_mul_mod_self_left]
    | succ i =>
      simp only [natOfBits, Nat.testBit_succ, List.getD_cons_succ]
      have hdiv : ((if b then 1 else 0) + 2 * natOfBits t) / 2 = natOfBits t := by
        cases b <;> simp <;> omega
      rw [hdiv, ih]

theorem natOfBits_lt (l : List Bool) : natOfBits l < 2 ^ l.length := by
  induction l with
  | nil => simp [natOfBits]
  | cons b t ih =>
    simp only [natOfBits, List.length_cons, pow_succ]
    cases b
    · rw [if_neg (by simp : ¬(false = true))]
      omega
    · rw [if_pos rfl]
      omega

theorem bitsOfNat_length (len w : Nat) : (bitsOfNat len w).length = len := by
  simp [bitsOfNat]

theorem getD_bitsOfNat (len w i : Nat) (d : Bool) (h : i < len) :
    (bitsOfNat len w).getD i d = w.testBit i := by
  simp [bitsOfNat, List.getD_eq_getElem?_getD, List.getElem?_map, List.getElem?_range h]

theorem getD_bitsOfNat_ge (len w i : Nat) (d : Bool) (h : len ≤ i) :
    (bitsOfNat len w).getD i d = d := by
  have : (bitsOfNat len w).length ≤ i := by simpa [bitsOfNat_length]
  simp [List.getD_eq_getElem?_getD, List.getElem?_eq_none this]

theorem bitsOfNat_natOfBits (l : List Bool) : bitsOfNat l.length (natOfBits l) = l := by
  apply List.ext_getElem (by simp [bitsOfNat_length])
  intro i h1 h2
  have : (bitsOfNat l.length (natOfBits l)).getD i false = l.getD i false := by
    rw [getD_bitsOfNat _ _ _ _ (by simpa [bitsOfNat_length] using h1), testBit_natOfBits]
  simpa [List.getD_eq_getElem?_getD, List.getElem?_eq_getElem, h1, h2] using this

theorem natOfBits_bitsOfNat (n w : Nat) (h : w < 2 ^ n) :
    natOfBits (bitsOfNat n w) = w := by
  apply Nat.eq_of_testBit_eq
  intro i
  rw [testBit_natOfBits]
  rcases lt_or_le i n with hi | hi
  · rw [getD_bitsOfNat _ _ _ _ hi]
  · rw [getD_bitsOfNat_ge _ _ _ _ hi]
    exact (Nat.testBit_lt_two_pow (lt_of_lt_of_le h (Nat.pow_le_pow_right (by omega) hi))).symm

theorem natOfBits_append (l t : List Bool) :
    natOfBits (l ++ t) = natOfBits l + 2 ^ l.length * natOfBits t := by
  induction l with
  | nil => simp [natOfBits]
  | cons b r ih => simp [natOfBits, ih, pow_succ]; ring

theorem getBit_eq_testBit (x p : Nat) : getBit x p = x.testBit p := by
  simp [getBit, Nat.testBit, Nat.and_comm]

/-! ### Abstract select (`selIdx`) and counting lemmas -/

theorem selIdx_le_length (b : Bool) (l : List Bool) (k : Nat) : selIdx b l k ≤ l.length := by
  induction l generalizing k with
  | nil => simp [selIdx]
  | cons x t ih =>
    simp only [selIdx, List.length_cons]
    rcases eq_or_ne x b with rfl | hx
    · rw [if_pos rfl]
      rcases Nat.eq_zero_or_pos k with rfl | hk
      · simp
      · rw [if_neg (by omega)]
        have := ih (k - 1); omega
    · rw [if_neg hx]
      have := ih k; omega

theorem selIdx_lt_length (b : Bool) (l : List Bool) (k : Nat) (h : k < l.count b) :
    selIdx b l k < l.length := by
  induction l generalizing k with
  | nil => simp at h
  | cons x t ih =>
    simp only [selIdx, List.length_cons]
    rcases eq_or_ne x b with rfl | hx
    · rw [if_pos rfl]
      rcases Nat.eq_zero_or_pos k with rfl | hk
      · simp
      · rw [if_neg (by omega)]
        rw [List.count_cons_self] at h
        have := ih (k - 1) (by omega); omega
    · rw [if_neg hx]
      rw [List.count_cons_of_ne (Ne.symm hx)] at h
      have := ih k h; omega

theorem getD_selIdx (b : Bool) (l : List Bool) (k : Nat) (d : Bool) (h : k < l.count b) :
    l.getD (selIdx b l k) d = b := by
  induction l generalizing k with
  | nil => simp at h
  | cons x t ih =>
    simp only [selIdx]
    rcases eq_or_ne x b with rfl | hx
    · rw [if_pos rfl]
      rcases Nat.eq_zero_or_pos k with rfl | hk
      · simp
      · rw [if_neg (by omega), Nat.add_comm 1 (selIdx x t (k - 1)), List.getD_cons_succ]
        rw [List.count_cons_self] at h
        exact ih (k - 1) (by omega)
    · rw [if_neg hx, Nat.add_comm 1 (selIdx b t k), List.getD_cons_succ]
      rw [List.count_cons_of_ne (Ne.symm hx)] at h
      exact ih k h

theorem count_take_selIdx (b : Bool) (l : List Bool) (k : Nat) (h : k < l.count b) :
    (l.take (selIdx b l k)).count b = k := by
  induction l generalizing k with
  | nil => simp at h
  | cons x t ih =>
    simp only [selIdx]
    rcases eq_or_ne x b with rfl | hx
    · rw [if_pos rfl]
      rcases Nat.eq_zero_or_pos k with rfl | hk
      · simp
      · rw [if_neg (by omega), Nat.add_comm 1 (selIdx x t (k - 1)), List.take_succ_cons,
          List.count_cons_self]
        rw [List.count_cons_self] at h
        rw [ih (k - 1) (by omega)]; omega
    · rw [if_neg hx, Nat.add_comm 1 (selIdx b t k), List.take_succ_cons,
        List.count_cons_of_ne (Ne.symm hx)]
      rw [List.count_cons_of_ne (Ne.symm hx)] at h
      exact ih k h

theorem selIdx_append_left (b : Bool) (l t : List Bool) (k : Nat) (h : k < l.count b) :
    selIdx b (l ++ t) k = selIdx b l k := by
  induction l generalizing k with
  | nil => simp at h
  | cons x r ih =>
    simp only [List.cons_append, selIdx, List.append_eq]
    rcases eq_or_ne x b with rfl | hx
    · rw [if_pos rfl, if_pos rfl]
      rcases Nat.eq_zero_or_pos k with rfl | hk
      · simp
      · rw [if_neg (by omega), if_neg (by omega)]
        rw [List.count_cons_self] at h
        rw [ih (k - 1) (by omega)]
    · rw [if_neg hx, if_neg hx]
      rw [List.count_cons_of_ne (Ne.symm hx)] at h
      rw [ih k h]

theorem selIdx_append_right (b : Bool) (l t : List Bool) (k : Nat) (h : l.count b ≤ k) :
    selIdx b (l ++ t) k = l.length + selIdx b t (k - l.count b) := by
  induction l generalizing k with
  | nil => simp
  | cons x r ih =>
    simp only [List.cons_append, selIdx, List.length_cons, List.append_eq]
    rcases eq_or_ne x b with rfl | hx
    · rw [List.count_cons_self] at h ⊢
      rw [if_pos rfl, if_neg (by omega), ih (k - 1) (by omega)]
      have : k - 1 - r.count x = k - (r.count x + 1) := by omega
      rw [this]; omega
    · rw [List.count_cons_of_ne (Ne.symm hx)] at h ⊢
      rw [if_neg hx, ih k h]
      omega

theorem selIdx_mono (b : Bool) (l : List Bool) (k j : Nat) (h : k ≤ j) :
    selIdx b l k ≤ selIdx b l j := by
  induction l generalizing k j with
  | nil => simp [selIdx]
  | cons x t ih =>
    simp only [selIdx]
    rcases eq_or_ne x b with rfl | hx
    · rw [if_pos rfl, if_pos rfl]
      by_cases hk : k = 0
      · rw [if_pos hk]
        exact Nat.zero_le _
      · have hj : ¬j = 0 := by omega
        rw [if_neg hk, if_neg hj]
        have := ih (k - 1) (j - 1) (by omega)
        omega
    · rw [if_neg hx, if_neg hx]
      have := ih k j h
      omega

theorem count_take_mono (b : Bool) (l : List Bool) (i j : Nat) (h : i ≤ j) :
    (l.take i).count b ≤ (l.take j).count b := by
  induction l generalizing i j with
  | nil => simp
  | cons x t ih =>
    cases i with
    | zero => simp
    | succ i =>
      cases j with
      | zero => omega
      | succ j =>
        simp only [List.take_succ_cons, List.count_cons]
        have := ih i j (by omega); omega

theorem count_take_le (b : Bool) (l : List Bool) (i : Nat) :
    (l.take i).count b ≤ l.count b := by
  rcases le_total i l.length with hle | hle
  · calc (l.take i).count b ≤ (l.take l.length).count b := count_take_mono b l i _ hle
      _ = l.count b := by rw [List.take_length]
  · rw [List.take_of_length_le hle]

theorem take_count_le_of_le_selIdx (b : Bool) (l : List Bool) (k i : Nat)
    (h : k < l.count b) (hi : i ≤ selIdx b l k) : (l.take i).count b ≤ k := by
  calc (l.take i).count b ≤ (l.take (selIdx b l k)).count b := count_take_mono b l _ _ hi
    _ = k := count_take_selIdx b l k h

theorem lt_count_take_of_selIdx_lt (b : Bool) (l : List Bool) (k i : Nat)
    (h : k < l.count b) (hi : selIdx b l k < i) : k < (l.take i).count b := by
  have hlt := selIdx_lt_length b l k h
  have h1 : (l.take (selIdx b l k + 1)).count b = k + 1 := by
    rw [List.take_succ, List.count_append, count_take_selIdx b l k h]
    have hsome : l[selIdx b l k]? = some b := by
      rw [List.getElem?_eq_getElem hlt]
      have hgd := getD_selIdx b l k (!b) h
      rw [List.getD_eq_getElem?_getD, List.getElem?_eq_getElem hlt] at hgd
      simp only [Option.getD_some] at hgd
      rw [hgd]
    simp [hsome]
  have := count_take_mono b l (selIdx b l k + 1) i hi
  omega

/-! ### Enumerative codec correctness -/

theorem comb_eq_choose (n k : Nat) : comb n k = Nat.choose n k := by
  induction k with
  | zero => simp [comb]
  | succ k ih =>
    have hstep : comb n (k + 1) = comb n k * (n - k) / (k + 1) := by
      rw [comb, comb, List.range_succ, List.foldl_append, List.foldl_cons, List.foldl_nil]
    rw [hstep, ih]
    rcases lt_or_le k n with hk | hk
    · rw [← Nat.choose_succ_right_eq n k, Nat.mul_div_cancel _ (by omega)]
    · rw [Nat.sub_eq_zero_of_le hk, Nat.mul_zero, Nat.zero_div,
        Nat.choose_eq_zero_of_lt (show n < k + 1 by omega)]

theorem encBits_lt (l : List Bool) : encBits l < Nat.choose l.length (l.count true) := by
  induction l with
  | nil => simp [encBits]
  | cons b t ih =>
    cases b
    · have henc : encBits (false :: t) = encBits t := by simp [encBits]
      rw [List.count_cons_of_ne (by simp), List.length_cons, henc]
      exact lt_of_lt_of_le ih (Nat.choose_le_succ _ _)
    · have henc : encBits (true :: t) = Nat.choose t.length (t.count true + 1) + encBits t := by
        simp [encBits, comb_eq_choose]
      rw [List.count_cons_self, List.length_cons, henc, Nat.choose_succ_succ']
      omega

theorem decBits_length (l r code : Nat) : (decBits l r code).length = l := by
  induction l generalizing r code with
  | zero => simp [decBits]
  | succ l ih =>
    simp only [decBits]
    split <;> simp [ih]

theorem decBits_encBits (l : List Bool) :
    decBits l.length (l.count true) (encBits l) = l := by
  induction l with
  | nil => simp [decBits]
  | cons b t ih =>
    cases b
    · have henc : encBits (false :: t) = encBits t := by simp [encBits]
      rw [List.count_cons_of_ne (by simp), List.length_cons, henc]
      have hlt : encBits t < comb t.length (t.count true) := by
        rw [comb_eq_choose]; exact encBits_lt t
      simp only [decBits]
      rw [if_neg (by omega), ih]
    · have henc : encBits (true :: t) = comb t.length (t.count true + 1) + encBits t := by
        simp [encBits]
      rw [List.count_cons_self, List.length_cons, henc]
      simp only [decBits]
      rw [if_pos (Nat.le_add_right _ _), Nat.add_sub_cancel_left, Nat.add_sub_cancel, ih]

/-! ### Packed bitstream: `getSlice` / `setSlice` characterisation -/

/-- Bit `p` of the packed bitstream, i.e. bit `p % 64` of word `p / 64`. -/
def streamBit (bits : List Nat) (p : Nat) : Bool := (bits.getD (p / 64) 0).testBit (p % 64)

theorem getD_lt_of_entries_lt (bits : List Nat) (hw : ∀ w ∈ bits, w < 2 ^ 64) (i : Nat) :
    bits.getD i 0 < 2 ^ 64 := by
  rcases lt_or_le i bits.length with h | h
  · rw [List.getD_eq_getElem?_getD, List.getElem?_eq_getElem h]
    exact hw _ (List.getElem_mem h)
  · rw [List.getD_eq_getElem?_getD, List.getElem?_eq_none h]
    simp

theorem shiftRight_le_self (x i : Nat) : x >>> i ≤ x := by
  rw [Nat.shiftRight_eq_div_pow]
  exact Nat.div_le_self _ _

theorem getSlice_testBit (bits : List Nat) (pos len j : Nat) (hlen : len ≤ 64)
    (hw : ∀ w ∈ bits, w < 2 ^ 64) :
    (getSlice bits pos len).testBit j = (decide (j < len) && streamBit bits (pos + j)) := by
  rcases Nat.eq_zero_or_pos len with rfl | hpos
  · simp [getSlice]
  rw [getSlice, if_neg (by omega)]
  simp only [decompose]
  set B := bits.getD (pos / 64) 0 with hB
  set B1 := bits.getD (pos / 64 + 1) 0 with hB1
  have hBlt : B < 2 ^ 64 := getD_lt_of_entries_lt bits hw _
  have hB1lt : B1 < 2 ^ 64 := getD_lt_of_entries_lt bits hw _
  have hoff : pos % 64 < 64 := Nat.mod_lt _ (by omega)
  have hposeq : pos = 64 * (pos / 64) + pos % 64 := (Nat.div_add_mod pos 64).symm.trans (by ring_nf)
  -- the unmasked combined word
  set ret : Nat := if pos % 64 + len > 64 then
      B >>> (pos % 64) ||| B1 <<< (64 - pos % 64) % 2 ^ 64
    else B >>> (pos % 64) with hret
  have hretlt : ret < 2 ^ 64 := by
    rw [hret]
    split
    · exact Nat.or_lt_two_pow (lt_of_le_of_lt (shiftRight_le_self _ _) hBlt)
        (Nat.mod_lt _ (by positivity))
    · exact lt_of_le_of_lt (shiftRight_le_self _ _) hBlt
  have hcommon : ∀ j, j < len → ret.testBit j = streamBit bits (pos + j) := by
    intro j hj
    have hjb : j < 64 := by omega
    rw [hret]
    by_cases hsplit : pos % 64 + len > 64
    · rw [if_pos hsplit]
      rw [Nat.testBit_or, Nat.testBit_shiftRight, Nat.testBit_mod_two_pow,
        Nat.testBit_shiftLeft]
      by_cases hcase : pos % 64 + j < 64
      · have h1 : (pos + j) / 64 = pos / 64 := by omega
        have h2 : (pos + j) % 64 = pos % 64 + j := by omega
        have hfalse : ¬(j ≥ 64 - pos % 64) := by omega
        rw [streamBit, h1, h2, ← hB]
        simp [hfalse]
      · have h1 : (pos + j) / 64 = pos / 64 + 1 := by omega
        have h2 : (pos + j) % 64 = pos % 64 + j - 64 := by omega
        have hBfalse : B.testBit (pos % 64 + j) = false :=
          Nat.testBit_lt_two_pow (lt_of_lt_of_le hBlt (Nat.pow_le_pow_right (by omega) (by omega)))
        have htrue : j ≥ 64 - pos % 64 := by omega
        have h3 : j - (64 - pos % 64) = pos % 64 + j - 64 := by omega
        rw [streamBit, h1, h2, ← hB1, hBfalse]
        simp [hjb, htrue, h3]
    · rw [if_neg hsplit]
      rw [Nat.testBit_shiftRight]
      have h1 : (pos + j) / 64 = pos / 64 := by omega
      have h2 : (pos + j) % 64 = pos % 64 + j := by omega
      rw [streamBit, h1, h2, ← hB]
  by_cases hfull : len = 64
  · rw [if_pos hfull]
    rcases lt_or_le j len with hj | hj
    · rw [hcommon j hj]
      simp [hj]
    · have : ret.testBit j = false :=
        Nat.testBit_lt_two_pow (lt_of_lt_of_le hretlt (Nat.pow_le_pow_right (by omega) (by omega)))
      rw [this]
      simp [show ¬(j < len) by omega]
  · rw [if_neg hfull, Nat.testBit_mod_two_pow]
    rcases lt_or_le j len with hj | hj
    · rw [hcommon j hj]
    · simp [show ¬(j < len) by omega]

theorem length_setSlice (bits : List Nat) (pos len val : Nat) :
    (setSlice bits pos len val).length = bits.length := by
  rw [setSlice]
  split
  · rfl
  · simp only [decompose]
    split <;> simp

theorem entries_lt_setSlice (bits : List Nat) (pos len val : Nat)
    (hw : ∀ w ∈ bits, w < 2 ^ 64) (hv : val < 2 ^ 64) :
    ∀ w ∈ setSlice bits pos len val, w < 2 ^ 64 := by
  intro w hmem
  rw [setSlice] at hmem
  split at hmem
  · exact hw w hmem
  · simp only [decompose] at hmem
    split at hmem
    · rcases List.mem_or_eq_of_mem_set hmem with hmem1 | rfl
      · rcases List.mem_or_eq_of_mem_set hmem1 with hmem2 | rfl
        · exact hw w hmem2
        · exact Nat.or_lt_two_pow (getD_lt_of_entries_lt bits hw _) (Nat.mod_lt _ (by positivity))
      · refine Nat.or_lt_two_pow (getD_lt_of_entries_lt _ ?_ _)
          (lt_of_le_of_lt (shiftRight_le_self _ _) hv)
        intro u hu
        rcases List.mem_or_eq_of_mem_set hu with hu1 | rfl
        · exact hw u hu1
        · exact Nat.or_lt_two_pow (getD_lt_of_entries_lt bits hw _) (Nat.mod_lt _ (by positivity))
    · rcases List.mem_or_eq_of_mem_set hmem with hmem1 | rfl
      · exact hw w hmem1
      · exact Nat.or_lt_two_pow (getD_lt_of_entries_lt bits hw _) (Nat.mod_lt _ (by positivity))

theorem getD_set_self (l : List Nat) (i : Nat) (a : Nat) (h : i < l.length) :
    (l.set i a).getD i 0 = a := by
  rw [List.getD_eq_getElem?_getD, List.getElem?_set_self (by simpa using h)]
  simp

theorem getD_set_ne (l : List Nat) (i j : Nat) (a : Nat) (h : i ≠ j) :
    (l.set i a).getD j 0 = l.getD j 0 := by
  rw [List.getD_eq_getElem?_getD, List.getElem?_set_ne h]
  rw [List.getD_eq_getElem?_getD]

theorem streamBit_setSlice (bits : List Nat) (pos len val q : Nat) (hlen : len ≤ 64)
    (hv : val < 2 ^ len) (hw : ∀ w ∈ bits, w < 2 ^ 64)
    (hbound : pos + len ≤ 64 * bits.length) :
    streamBit (setSlice bits pos len val) q =
      if pos ≤ q ∧ q < pos + len then streamBit bits q || val.testBit (q - pos)
      else streamBit bits q := by
  rcases Nat.eq_zero_or_pos len with rfl | hposl
  · rw [setSlice, if_pos rfl]
    split
    · omega
    · rfl
  rw [setSlice, if_neg (by omega)]
  simp only [decompose]
  have hblock : pos / 64 < bits.length := by
    have : pos < 64 * bits.length := by omega
    omega
  set V : Nat := (val <<< (pos % 64)) % 2 ^ 64 with hV
  set bits1 := bits.set (pos / 64) (bits.getD (pos / 64) 0 ||| V) with hbits1
  have hV_testBit : ∀ i, V.testBit i =
      (decide (i < 64) && decide (pos % 64 ≤ i) && val.testBit (i - pos % 64)) := by
    intro i
    rw [hV, Nat.testBit_mod_two_pow, Nat.testBit_shiftLeft]
    rcases le_or_lt (pos % 64) i with h | h
    · simp [h]
    · simp [show ¬(i ≥ pos % 64) by omega, h]
  have hstream1 : ∀ q, streamBit bits1 q =
      if pos ≤ q ∧ q < pos + len ∧ q / 64 = pos / 64 then
        streamBit bits q || val.testBit (q - pos)
      else streamBit bits q := by
    intro q
    rw [hbits1, streamBit, streamBit]
    by_cases hq : q / 64 = pos / 64
    · rw [hq, getD_set_self _ _ _ hblock, Nat.testBit_or, hV_testBit]
      have hqo : q % 64 < 64 := Nat.mod_lt _ (by omega)
      by_cases hin : pos ≤ q ∧ q < pos + len
      · rw [if_pos ⟨hin.1, hin.2, rfl⟩]
        have h1 : pos % 64 ≤ q % 64 := by omega
        have h2 : q % 64 - pos % 64 = q - pos := by omega
        simp [hqo, h1, h2]
      · rw [if_neg (by tauto)]
        have : (pos % 64 ≤ q % 64 → val.testBit (q % 64 - pos % 64) = false) := by
          intro hle
          rcases le_or_lt pos q with hpq | hpq
          · have : q % 64 - pos % 64 = q - pos := by omega
            rw [this]
            have : len ≤ q - pos := by omega
            exact Nat.testBit_lt_two_pow
              (lt_of_lt_of_le hv (Nat.pow_le_pow_right (by omega) this))
          · omega
        by_cases hle : pos % 64 ≤ q % 64
        · simp [hqo, hle, this hle]
        · simp [hqo, show ¬(pos % 64 ≤ q % 64) from hle]
    · rw [getD_set_ne _ _ _ _ (fun h => hq h.symm)]
      rw [if_neg (by tauto)]
  by_cases hsplit : pos % 64 + len > 64
  · rw [if_pos hsplit]
    have hblock1 : pos / 64 + 1 < bits.length := by
      have : 64 * (pos / 64 + 1) < pos + len := by omega
      omega
    set W : Nat := val >>> (64 - pos % 64) with hW
    have hB1 : bits1.getD (pos / 64 + 1) 0 = bits.getD (pos / 64 + 1) 0 :=
      getD_set_ne _ _ _ _ (by omega)
    rw [streamBit]
    by_cases hq : q / 64 = pos / 64 + 1
    · rw [hq, getD_set_self _ _ _ (by rw [hbits1]; simpa using hblock1), hB1,
        Nat.testBit_or, hW, Nat.testBit_shiftRight]
      have hqo : q % 64 < 64 := Nat.mod_lt _ (by omega)
      by_cases hin : pos ≤ q ∧ q < pos + len
      · rw [if_pos hin]
        have h2 : 64 - pos % 64 + q % 64 = q - pos := by omega
        rw [h2, streamBit, hq]
      · rw [if_neg hin]
        have hge : pos ≤ q := by
          have : 64 * (pos / 64 + 1) ≤ q := by omega
          omega
        have hout : pos + len ≤ q := by
          rcases Nat.lt_or_ge q (pos + len) with h | h
          · exact absurd ⟨hge, h⟩ hin
          · exact h
        have : val.testBit (64 - pos % 64 + q % 64) = false := by
          have harg : len ≤ 64 - pos % 64 + q % 64 := by omega
          exact Nat.testBit_lt_two_pow
            (lt_of_lt_of_le hv (Nat.pow_le_pow_right (by omega) harg))
        rw [this, streamBit, hq]
        simp
    · have hs := hstream1 q
      rw [streamBit] at hs
      rw [getD_set_ne _ _ _ _ (fun h => hq h.symm), hs]
      by_cases hin : pos ≤ q ∧ q < pos + len
      · rcases hin with ⟨h1, h2⟩
        have hqblock : q / 64 = pos / 64 := by
          have := Nat.div_add_mod pos 64
          have := Nat.div_add_mod q 64
          omega
        rw [if_pos ⟨h1, h2, hqblock⟩, if_pos ⟨h1, h2⟩]
      · rw [if_neg (by tauto), if_neg hin]
  · rw [if_neg hsplit, hstream1 q]
    by_cases hin : pos ≤ q ∧ q < pos + len
    · rcases hin with ⟨h1, h2⟩
      have hqblock : q / 64 = pos / 64 := by omega
      rw [if_pos ⟨h1, h2, hqblock⟩, if_pos ⟨h1, h2⟩]
    · rw [if_neg (by tauto), if_neg hin]

theorem streamBit_append_zero (bits : List Nat) (q : Nat) :
    streamBit (bits ++ [0]) q = streamBit bits q := by
  rw [streamBit, streamBit]
  rcases lt_or_le (q / 64) bits.length with h | h
  · rw [List.getD_eq_getElem?_getD, List.getElem?_append_left h, ← List.getD_eq_getElem?_getD]
  · rw [List.getD_eq_getElem?_getD (bits ++ [0]), List.getD_eq_getElem?_getD bits,
      List.getElem?_eq_none h]
    rcases Nat.lt_or_ge (q / 64) (bits ++ [0]).length with h2 | h2
    · have : q / 64 = bits.length := by simp at h2; omega
      rw [List.getElem?_eq_getElem h2]
      simp [this]
    · rw [List.getElem?_eq_none h2]

theorem getSlice_eq_val (bits : List Nat) (pos len val : Nat) (hlen : len ≤ 64)
    (hv : val < 2 ^ len) (hw : ∀ w ∈ bits, w < 2 ^ 64)
    (h : ∀ j, j < len → streamBit bits (pos + j) = val.testBit j) :
    getSlice bits pos len = val := by
  apply Nat.eq_of_testBit_eq
  intro j
  rw [getSlice_testBit bits pos len j hlen hw]
  rcases lt_or_le j len with hj | hj
  · simp [hj, h j hj]
  · have : val.testBit j = false :=
      Nat.testBit_lt_two_pow (lt_of_lt_of_le hv (Nat.pow_le_pow_right (by omega) hj))
    simp [show ¬(j < len) by omega, this]

/-! ### Word-level codec properties -/

theorem comb64_le_pow : ∀ c < 65, comb 64 c ≤ 2 ^ ceilLog2 (comb 64 c) := by decide

theorem enumCodeLength_le (c : Nat) : enumCodeLength c ≤ 64 := by
  rw [enumCodeLength]
  split <;> omega

theorem count_bitsOfNat_le (len w : Nat) : (bitsOfNat len w).count true ≤ len := by
  have := List.count_le_length (l := bitsOfNat len w) (a := true)
  rwa [bitsOfNat_length] at this

theorem enumEncode_lt (val c : Nat) (hc : c = (bitsOfNat 64 val).count true)
    (hv : val < 2 ^ 64) : enumEncode val c < 2 ^ enumCodeLength c := by
  rw [enumEncode]
  by_cases hraw : enumCodeLength c = 64
  · rw [if_pos hraw, hraw]
    exact hv
  · rw [if_neg hraw]
    have h1 : encBits (bitsOfNat 64 val) < comb 64 c := by
      have := encBits_lt (bitsOfNat 64 val)
      rw [bitsOfNat_length, ← hc, ← comb_eq_choose] at this
      exact this
    have hc64 : c < 65 := by
      have := count_bitsOfNat_le 64 val
      omega
    have h2 : comb 64 c ≤ 2 ^ ceilLog2 (comb 64 c) := comb64_le_pow c hc64
    have h3 : enumCodeLength c = ceilLog2 (comb 64 c) := by
      rw [enumCodeLength] at hraw ⊢
      split at hraw
      · omega
      · rw [if_neg (by omega)]
    rw [h3]
    omega

theorem enumDecode_enumEncode (val c : Nat) (hc : c = (bitsOfNat 64 val).count true)
    (hv : val < 2 ^ 64) : enumDecode (enumEncode val c) c = val := by
  rw [enumEncode, enumDecode]
  by_cases hraw : enumCodeLength c = 64
  · rw [if_pos hraw, if_pos hraw]
  · rw [if_neg hraw, if_neg hraw]
    have key := decBits_encBits (bitsOfNat 64 val)
    rw [bitsOfNat_length] at key
    rw [hc, key, natOfBits_bitsOfNat 64 val hv]

theorem enumBit_enumEncode (val c : Nat) (hc : c = (bitsOfNat 64 val).count true)
    (hv : val < 2 ^ 64) (j : Nat) :
    enumBit (enumEncode val c) c j = val.testBit j := by
  rw [enumBit, enumDecode_enumEncode val c hc hv, getBit_eq_testBit]

theorem enumRank_enumEncode (val c : Nat) (hc : c = (bitsOfNat 64 val).count true)
    (hv : val < 2 ^ 64) (pos : Nat) :
    enumRank (enumEncode val c) c pos = ((bitsOfNat 64 val).take pos).count true := by
  rw [enumRank, enumDecode_enumEncode val c hc hv]

theorem enumSelect1_enumEncode (val c : Nat) (hc : c = (bitsOfNat 64 val).count true)
    (hv : val < 2 ^ 64) (k : Nat) :
    enumSelect1 (enumEncode val c) c k = selIdx true (bitsOfNat 64 val) (k - 1) := by
  rw [enumSelect1, enumDecode_enumEncode val c hc hv]

theorem enumSelect0_enumEncode (val c : Nat) (hc : c = (bitsOfNat 64 val).count true)
    (hv : val < 2 ^ 64) (k : Nat) :
    enumSelect0 (enumEncode val c) c k = selIdx false (bitsOfNat 64 val) (k - 1) := by
  rw [enumSelect0, enumDecode_enumEncode val c hc hv]

/-! ### Abstract view of a build history -/

/-- Number of flushed (complete) small blocks after pushing `bs`. -/
def blockCnt (bs : List Bool) : Nat := if bs.length = 0 then 0 else (bs.length - 1) / 64

/-- The `j`-th small block of the abstract bit sequence. -/
def blockBits (bs : List Bool) (j : Nat) : List Bool := (bs.drop (64 * j)).take 64

/-- Popcount of the `j`-th small block. -/
def blockOnes (bs : List Bool) (j : Nat) : Nat := (blockBits bs j).count true

/-- Total code length of the first `j` flushed small blocks. -/
def ptrSum (bs : List Bool) (j : Nat) : Nat :=
  ((List.range j).map (fun i => enumCodeLength (blockOnes bs i))).sum

/-- Number of large-block index entries after pushing `bs`. -/
def largeCnt (bs : List Bool) : Nat := if bs.length = 0 then 0 else (bs.length - 1) / 1024 + 1

/-- Ones among the first `i` abstract bits. -/
def oneCnt (bs : List Bool) (i : Nat) : Nat := (bs.take i).count true

/-- The pending (not yet flushed) suffix of the abstract bit sequence. -/
def pendingBits (bs : List Bool) : List Bool := bs.drop (64 * blockCnt bs)

/-- Specified content of the select sample arrays: one entry per started
group of 4096 occurrences of `x`, holding the large-block index of the
sampled occurrence. -/
def specInds (x : Bool) (bs : List Bool) : List Nat :=
  (List.range (floor (bs.count x) 4096)).map (fun i => selIdx x bs (4096 * i) / 1024)

/-- The build invariant: how each field of the Go struct reflects the pushed
bit sequence `bs`. -/
structure Inv (bs : List Bool) (rs : RSDic) : Prop where
  hnum : rs.num = bs.length
  hone : rs.oneNum = bs.count true
  hzero : rs.zeroNum = bs.count false
  hlastB : rs.lastBlock = natOfBits (pendingBits bs)
  hlastOne : rs.lastOneNum = (pendingBits bs).count true
  hlastZero : rs.lastZeroNum = (pendingBits bs).count false
  hrsb : rs.rankSmallBlocks = (List.range (blockCnt bs)).map (blockOnes bs)
  hclen : rs.codeLen = ptrSum bs (blockCnt bs)
  hpb : rs.pointerBlocks = (List.range (largeCnt bs)).map (fun L => ptrSum bs (16 * L))
  hrb : rs.rankBlocks = (List.range (largeCnt bs)).map (fun L => oneCnt bs (1024 * L))
  hso : rs.selectOneInds = specInds true bs
  hsz : rs.selectZeroInds = specInds false bs
  hblen : rs.bits.length = floor (ptrSum bs (blockCnt bs)) 64
  hbw : ∀ w ∈ rs.bits, w < 2 ^ 64
  hfields : ∀ j, j < blockCnt bs →
    getSlice rs.bits (ptrSum bs j) (enumCodeLength (blockOnes bs j)) =
      enumEncode (natOfBits (blockBits bs j)) (blockOnes bs j)
  hhi : ∀ q, ptrSum bs (blockCnt bs) ≤ q → streamBit rs.bits q = false

/-! ### Stability of the abstract view under append -/

theorem getD_map_range (f : Nat → Nat) (m j d : Nat) (h : j < m) :
    ((List.range m).map f).getD j d = f j := by
  rw [List.getD_eq_getElem?_getD, List.getElem?_map, List.getElem?_range h]
  rfl

theorem length_map_range (f : Nat → Nat) (m : Nat) : ((List.range m).map f).length = m := by
  simp

theorem ptrSum_succ (bs : List Bool) (j : Nat) :
    ptrSum bs (j + 1) = ptrSum bs j + enumCodeLength (blockOnes bs j) := by
  rw [ptrSum, ptrSum, List.range_succ, List.map_append, List.sum_append]
  simp

theorem ptrSum_mono (bs : List Bool) (i j : Nat) (h : i ≤ j) : ptrSum bs i ≤ ptrSum bs j := by
  induction j with
  | zero =>
    have hi : i = 0 := by omega
    rw [hi]
  | succ j ih =>
    rcases Nat.lt_or_ge i (j + 1) with h2 | h2
    · rw [ptrSum_succ]
      have := ih (by omega)
      omega
    · have hi : i = j + 1 := by omega
      rw [hi]

theorem blockBits_append (bs t : List Bool) (j : Nat) (h : 64 * j + 64 ≤ bs.length) :
    blockBits (bs ++ t) j = blockBits bs j := by
  rw [blockBits, blockBits, List.drop_append_of_le_length (by omega),
    List.take_append_of_le_length (by simp; omega)]

theorem blockOnes_append (bs t : List Bool) (j : Nat) (h : 64 * j + 64 ≤ bs.length) :
    blockOnes (bs ++ t) j = blockOnes bs j := by
  rw [blockOnes, blockOnes, blockBits_append bs t j h]

theorem ptrSum_append (bs t : List Bool) (j : Nat) (h : 64 * j ≤ bs.length) :
    ptrSum (bs ++ t) j = ptrSum bs j := by
  rw [ptrSum, ptrSum]
  congr 1
  apply List.map_congr_left
  intro i hi
  rw [List.mem_range] at hi
  rw [blockOnes_append bs t i (by omega)]

theorem oneCnt_append (bs t : List Bool) (i : Nat) (h : i ≤ bs.length) :
    oneCnt (bs ++ t) i = oneCnt bs i := by
  rw [oneCnt, oneCnt, List.take_append_of_le_length h]

theorem count_take_add_count_drop (b : Bool) (l : List Bool) (i : Nat) :
    (l.take i).count b + (l.drop i).count b = l.count b := by
  rw [← List.count_append, List.take_append_drop]

theorem blockCnt_mul_le (bs : List Bool) : 64 * blockCnt bs ≤ bs.length := by
  rw [blockCnt]
  split
  · omega
  · have := Nat.div_mul_le_self (bs.length - 1) 64
    omega

theorem pendingBits_length (bs : List Bool) :
    (pendingBits bs).length = bs.length - 64 * blockCnt bs := by
  rw [pendingBits, List.length_drop]

theorem or_two_pow_eq_add (x k : Nat) (h : x < 2 ^ k) : x ||| 2 ^ k = x + 2 ^ k := by
  apply Nat.eq_of_testBit_eq
  intro i
  rw [Nat.testBit_or]
  rcases Nat.lt_trichotomy i k with hi | rfl | hi
  · rw [Nat.testBit_two_pow_of_ne (by omega)]
    have hdecomp : 2 ^ k = 2 * 2 ^ (k - i - 1) * 2 ^ i := by
      rw [← pow_succ']
      rw [← pow_add]
      congr 1
      omega
    rw [Nat.testBit_to_div_mod, Nat.testBit_to_div_mod, hdecomp,
      Nat.add_mul_div_right _ _ (Nat.pos_pow_of_pos i (by omega))]
    rw [Nat.add_mul_mod_self_left]
    simp
  · rw [Nat.testBit_lt_two_pow h, Nat.testBit_two_pow_self]
    rw [Nat.testBit_to_div_mod]
    have h1 : (x + 2 ^ i) / 2 ^ i = 1 := by
      rw [Nat.add_div_right _ (Nat.pos_pow_of_pos i (by omega)), Nat.div_eq_of_lt h]
    rw [h1]
    simp
  · rw [Nat.testBit_two_pow_of_ne (by omega),
      Nat.testBit_lt_two_pow (x := x) (lt_of_lt_of_le (by omega)
        (Nat.pow_le_pow_right (by omega) (by omega) : 2 ^ k ≤ 2 ^ i)),
      Nat.testBit_lt_two_pow (show x + 2 ^ k < 2 ^ i by
        have h2 : 2 ^ (k + 1) ≤ 2 ^ i := Nat.pow_le_pow_right (by omega) (by omega)
        have : x + 2 ^ k < 2 ^ (k + 1) := by
          rw [pow_succ]
          omega
        omega)]
    rfl

theorem map_range_congr (f g : Nat → Nat) (m m' : Nat) (hm : m = m')
    (h : ∀ i, i < m' → f i = g i) : (List.range m).map f = (List.range m').map g := by
  subst hm
  apply List.map_congr_left
  intro i hi
  rw [List.mem_range] at hi
  exact h i hi

theorem count_append_singleton_same (x : Bool) (bs : List Bool) :
    (bs ++ [x]).count x = bs.count x + 1 := by
  simp

theorem count_append_singleton_other (x b : Bool) (bs : List Bool) (h : x ≠ b) :
    (bs ++ [b]).count x = bs.count x := by
  rw [List.count_append, List.count_singleton]
  simp [show ¬(b == x) by simp; exact fun hh => h hh.symm]

theorem selIdx_append_singleton_count (x : Bool) (bs : List Bool) :
    selIdx x (bs ++ [x]) (bs.count x) = bs.length := by
  rw [selIdx_append_right x bs [x] _ (le_refl _), Nat.sub_self]
  simp [selIdx]

theorem specInds_append_other (x b : Bool) (bs : List Bool) (hxb : x ≠ b) :
    specInds x (bs ++ [b]) = specInds x bs := by
  rw [specInds, specInds, count_append_singleton_other x b bs hxb]
  apply map_range_congr _ _ _ _ rfl
  intro i hi
  have h4 : 4096 * i < bs.count x := by
    rw [floor] at hi
    omega
  rw [selIdx_append_left x bs [b] _ (by omega)]

theorem specInds_append_same (x : Bool) (bs : List Bool) :
    specInds x (bs ++ [x]) =
      if bs.count x % 4096 = 0 then specInds x bs ++ [bs.length / 1024]
      else specInds x bs := by
  rw [specInds, specInds, count_append_singleton_same x bs]
  by_cases hs : bs.count x % 4096 = 0
  · rw [if_pos hs]
    have hflr : floor (bs.count x + 1) 4096 = floor (bs.count x) 4096 + 1 := by
      rw [floor, floor]
      omega
    rw [hflr, List.range_succ, List.map_append]
    congr 1
    · apply map_range_congr _ _ _ _ rfl
      intro i hi
      have h4 : 4096 * i < bs.count x := by
        rw [floor] at hi
        omega
      rw [selIdx_append_left x bs [x] _ (by omega)]
    · have harg : 4096 * floor (bs.count x) 4096 = bs.count x := by
        rw [floor]
        omega
      simp only [List.map_cons, List.map_nil, harg]
      rw [selIdx_append_singleton_count]
  · rw [if_neg hs]
    have hflr : floor (bs.count x + 1) 4096 = floor (bs.count x) 4096 := by
      rw [floor, floor]
      omega
    rw [hflr]
    apply map_range_congr _ _ _ _ rfl
    intro i hi
    have h4 : 4096 * i < bs.count x := by
      rw [floor] at hi
      omega
    rw [selIdx_append_left x bs [x] _ (by omega)]

/-! ### Invariant preservation -/

theorem natOfBits_singleton (b : Bool) : natOfBits [b] = if b then 1 else 0 := by
  rw [natOfBits, natOfBits]
  omega

theorem streamBit_nil (q : Nat) : streamBit [] q = false := by
  simp [streamBit]

theorem getSlice_congr (bits bits' : List Nat) (pos len : Nat) (hlen : len ≤ 64)
    (hw : ∀ w ∈ bits, w < 2 ^ 64) (hw' : ∀ w ∈ bits', w < 2 ^ 64)
    (h : ∀ j, j < len → streamBit bits (pos + j) = streamBit bits' (pos + j)) :
    getSlice bits pos len = getSlice bits' pos len := by
  apply Nat.eq_of_testBit_eq
  intro j
  rw [getSlice_testBit bits pos len j hlen hw, getSlice_testBit bits' pos len j hlen hw']
  rcases lt_or_le j len with hj | hj
  · rw [h j hj]
  · simp [show ¬(j < len) by omega]

/-- The tail of `PushBack` (rsdic.go): the select-sample update, the bit
write into the pending block, and the counter increments. -/
def pushBits (rs : RSDic) (bit : Bool) : RSDic :=
  let rs :=
    if bit then
      let rs := { rs with lastBlock := rs.lastBlock ||| 1 <<< (rs.num % 64) }
      let rs :=
        if rs.oneNum % 4096 = 0 then
          { rs with selectOneInds := rs.selectOneInds ++ [rs.num / 1024] }
        else rs
      { rs with oneNum := rs.oneNum + 1, lastOneNum := rs.lastOneNum + 1 }
    else
      let rs :=
        if rs.zeroNum % 4096 = 0 then
          { rs with selectZeroInds := rs.selectZeroInds ++ [rs.num / 1024] }
        else rs
      { rs with zeroNum := rs.zeroNum + 1, lastZeroNum := rs.lastZeroNum + 1 }
  { rs with num := rs.num + 1 }

theorem PushBack_eq_pushBits (rs : RSDic) (b : Bool) :
    PushBack rs b = pushBits (if rs.num % 64 = 0 then writeBlock rs else rs) b := rfl

/-- The state of the dictionary after the flush phase of a `PushBack`, just
before the bit itself is written: the index structures already cover every
complete 64-bit block of `bs`, and the pending registers cover the rest. -/
structure InvPre (bs : List Bool) (rs2 : RSDic) : Prop where
  hnum : rs2.num = bs.length
  hone : rs2.oneNum = bs.count true
  hzero : rs2.zeroNum = bs.count false
  hlastB : rs2.lastBlock = natOfBits (bs.drop (64 * (bs.length / 64)))
  hlastOne : rs2.lastOneNum = (bs.drop (64 * (bs.length / 64))).count true
  hlastZero : rs2.lastZeroNum = (bs.drop (64 * (bs.length / 64))).count false
  hrsb : rs2.rankSmallBlocks = (List.range (bs.length / 64)).map (blockOnes bs)
  hclen : rs2.codeLen = ptrSum bs (bs.length / 64)
  hpb : rs2.pointerBlocks =
    (List.range (bs.length / 1024 + 1)).map (fun L => ptrSum bs (16 * L))
  hrb : rs2.rankBlocks =
    (List.range (bs.length / 1024 + 1)).map (fun L => oneCnt bs (1024 * L))
  hso : rs2.selectOneInds = specInds true bs
  hsz : rs2.selectZeroInds = specInds false bs
  hblen : rs2.bits.length = floor (ptrSum bs (bs.length / 64)) 64
  hbw : ∀ w ∈ rs2.bits, w < 2 ^ 64
  hfields : ∀ j, j < bs.length / 64 →
    getSlice rs2.bits (ptrSum bs j) (enumCodeLength (blockOnes bs j)) =
      enumEncode (natOfBits (blockBits bs j)) (blockOnes bs j)
  hhi : ∀ q, ptrSum bs (bs.length / 64) ≤ q → streamBit rs2.bits q = false

theorem inv_bitphase (bs : List Bool) (b : Bool) (rs2 : RSDic) (pre : InvPre bs rs2) :
    Inv (bs ++ [b]) (pushBits rs2 b) := by
  have hbc : blockCnt (bs ++ [b]) = bs.length / 64 := by
    rw [blockCnt, List.length_append, List.length_singleton, if_neg (by omega)]
    omega
  have hlc : largeCnt (bs ++ [b]) = bs.length / 1024 + 1 := by
    rw [largeCnt, List.length_append, List.length_singleton, if_neg (by omega)]
    omega
  have hdropmul : 64 * (bs.length / 64) ≤ bs.length := by
    have := Nat.div_mul_le_self bs.length 64
    omega
  have hpend : pendingBits (bs ++ [b]) = bs.drop (64 * (bs.length / 64)) ++ [b] := by
    rw [pendingBits, hbc, List.drop_append_of_le_length hdropmul]
  have hplen : (bs.drop (64 * (bs.length / 64))).length = bs.length % 64 := by
    rw [List.length_drop]
    omega
  have hbo : ∀ j, j < bs.length / 64 → blockOnes (bs ++ [b]) j = blockOnes bs j := by
    intro j hj
    exact blockOnes_append bs [b] j (by omega)
  have hbb : ∀ j, j < bs.length / 64 → blockBits (bs ++ [b]) j = blockBits bs j := by
    intro j hj
    exact blockBits_append bs [b] j (by omega)
  have hps : ∀ j, j ≤ bs.length / 64 → ptrSum (bs ++ [b]) j = ptrSum bs j := by
    intro j hj
    exact ptrSum_append bs [b] j (by omega)
  have hrsb' : (List.range (blockCnt (bs ++ [b]))).map (blockOnes (bs ++ [b])) =
      (List.range (bs.length / 64)).map (blockOnes bs) :=
    map_range_congr _ _ _ _ hbc hbo
  have hpb' : (List.range (largeCnt (bs ++ [b]))).map (fun L => ptrSum (bs ++ [b]) (16 * L)) =
      (List.range (bs.length / 1024 + 1)).map (fun L => ptrSum bs (16 * L)) := by
    apply map_range_congr _ _ _ _ hlc
    intro L hL
    apply hps
    have h1 : 1024 * L ≤ bs.length := by
      have := Nat.div_mul_le_self bs.length 1024
      omega
    omega
  have hrb' : (List.range (largeCnt (bs ++ [b]))).map (fun L => oneCnt (bs ++ [b]) (1024 * L)) =
      (List.range (bs.length / 1024 + 1)).map (fun L => oneCnt bs (1024 * L)) := by
    apply map_range_congr _ _ _ _ hlc
    intro L hL
    apply oneCnt_append
    have := Nat.div_mul_le_self bs.length 1024
    omega
  have hclen' : ptrSum (bs ++ [b]) (blockCnt (bs ++ [b])) = ptrSum bs (bs.length / 64) := by
    rw [hbc, hps _ (le_refl _)]
  cases b
  · by_cases hs : rs2.zeroNum % 4096 = 0
    · have heq : pushBits rs2 false = { rs2 with
        selectZeroInds := rs2.selectZeroInds ++ [rs2.num / 1024],
        zeroNum := rs2.zeroNum + 1, lastZeroNum := rs2.lastZeroNum + 1,
        num := rs2.num + 1 } := by
        simp [pushBits, hs]
      rw [heq]
      refine ⟨?_, ?_, ?_, ?_, ?_, ?_, ?_, ?_, ?_, ?_, ?_, ?_, ?_, ?_, ?_, ?_⟩
      · simp [pre.hnum]
      · simpa [pre.hone] using (count_append_singleton_other true false bs (by simp)).symm
      · simpa [pre.hzero] using (count_append_singleton_same false bs).symm
      · simp only [hpend, natOfBits_append, natOfBits_singleton]
        simp [pre.hlastB]
      · simp only [hpend]
        simp [pre.hlastOne, count_append_singleton_other true false _ (by simp)]
      · simp only [hpend]
        simp [pre.hlastZero, count_append_singleton_same false _]
      · simpa [hrsb'] using pre.hrsb
      · simpa [hclen'] using pre.hclen
      · simpa [hpb'] using pre.hpb
      · simpa [hrb'] using pre.hrb
      · simpa [specInds_append_other true false bs (by simp)] using pre.hso
      · rw [specInds_append_same false bs]
        rw [← pre.hzero, if_pos hs]
        simp [pre.hsz, pre.hnum]
      · simpa [hclen'] using pre.hblen
      · simpa using pre.hbw
      · intro j hj
        rw [hbc] at hj
        rw [hps j (by omega), hbo j hj, hbb j hj]
        exact pre.hfields j hj
      · intro q hq
        rw [hclen'] at hq
        exact pre.hhi q hq
    · have heq : pushBits rs2 false = { rs2 with
        zeroNum := rs2.zeroNum + 1, lastZeroNum := rs2.lastZeroNum + 1,
        num := rs2.num + 1 } := by
        simp [pushBits, hs]
      rw [heq]
      refine ⟨?_, ?_, ?_, ?_, ?_, ?_, ?_, ?_, ?_, ?_, ?_, ?_, ?_, ?_, ?_, ?_⟩
      · simp [pre.hnum]
      · simpa [pre.hone] using (count_append_singleton_other true false bs (by simp)).symm
      · simpa [pre.hzero] using (count_append_singleton_same false bs).symm
      · simp only [hpend, natOfBits_append, natOfBits_singleton]
        simp [pre.hlastB]
      · simp only [hpend]
        simp [pre.hlastOne, count_append_singleton_other true false _ (by simp)]
      · simp only [hpend]
        simp [pre.hlastZero, count_append_singleton_same false _]
      · simpa [hrsb'] using pre.hrsb
      · simpa [hclen'] using pre.hclen
      · simpa [hpb'] using pre.hpb
      · simpa [hrb'] using pre.hrb
      · simpa [specInds_append_other true false bs (by simp)] using pre.hso
      · rw [specInds_append_same false bs]
        rw [← pre.hzero, if_neg hs]
        simp [pre.hsz]
      · simpa [hclen'] using pre.hblen
      · simpa using pre.hbw
      · intro j hj
        rw [hbc] at hj
        rw [hps j (by omega), hbo j hj, hbb j hj]
        exact pre.hfields j hj
      · intro q hq
        rw [hclen'] at hq
        exact pre.hhi q hq
  · have hlbset : rs2.lastBlock ||| 1 <<< (rs2.num % 64) =
        natOfBits (bs.drop (64 * (bs.length / 64)) ++ [true]) := by
      rw [natOfBits_append, natOfBits_singleton, hplen, pre.hlastB, pre.hnum,
        Nat.one_shiftLeft]
      have hlt : natOfBits (bs.drop (64 * (bs.length / 64))) < 2 ^ (bs.length % 64) := by
        have := natOfBits_lt (bs.drop (64 * (bs.length / 64)))
        rwa [hplen] at this
      rw [or_two_pow_eq_add _ _ hlt]
      simp
    by_cases hs : rs2.oneNum % 4096 = 0
    · have heq : pushBits rs2 true = { rs2 with
        lastBlock := rs2.lastBlock ||| 1 <<< (rs2.num % 64),
        selectOneInds := rs2.selectOneInds ++ [rs2.num / 1024],
        oneNum := rs2.oneNum + 1, lastOneNum := rs2.lastOneNum + 1,
        num := rs2.num + 1 } := by
        simp [pushBits, hs]
      rw [heq]
      refine ⟨?_, ?_, ?_, ?_, ?_, ?_, ?_, ?_, ?_, ?_, ?_, ?_, ?_, ?_, ?_, ?_⟩
      · simp [pre.hnum]
      · simpa [pre.hone] using (count_append_singleton_same true bs).symm
      · simpa [pre.hzero] using (count_append_singleton_other false true bs (by simp)).symm
      · simpa [hpend] using hlbset
      · simp only [hpend]
        simp [pre.hlastOne, count_append_singleton_same true _]
      · simp only [hpend]
        simp [pre.hlastZero, count_append_singleton_other false true _ (by simp)]
      · simpa [hrsb'] using pre.hrsb
      · simpa [hclen'] using pre.hclen
      · simpa [hpb'] using pre.hpb
      · simpa [hrb'] using pre.hrb
      · rw [specInds_append_same true bs]
        rw [← pre.hone, if_pos hs]
        simp [pre.hso, pre.hnum]
      · simpa [specInds_append_other false true bs (by simp)] using pre.hsz
      · simpa [hclen'] using pre.hblen
      · simpa using pre.hbw
      · intro j hj
        rw [hbc] at hj
        rw [hps j (by omega), hbo j hj, hbb j hj]
        exact pre.hfields j hj
      · intro q hq
        rw [hclen'] at hq
        exact pre.hhi q hq
    · have heq : pushBits rs2 true = { rs2 with
        lastBlock := rs2.lastBlock ||| 1 <<< (rs2.num % 64),
        oneNum := rs2.oneNum + 1, lastOneNum := rs2.lastOneNum + 1,
        num := rs2.num + 1 } := by
        simp [pushBits, hs]
      rw [heq]
      refine ⟨?_, ?_, ?_, ?_, ?_, ?_, ?_, ?_, ?_, ?_, ?_, ?_, ?_, ?_, ?_, ?_⟩
      · simp [pre.hnum]
      · simpa [pre.hone] using (count_append_singleton_same true bs).symm
      · simpa [pre.hzero] using (count_append_singleton_other false true bs (by simp)).symm
      · simpa [hpend] using hlbset
      · simp only [hpend]
        simp [pre.hlastOne, count_append_singleton_same true _]
      · simp only [hpend]
        simp [pre.hlastZero, count_append_singleton_other false true _ (by simp)]
      · simpa [hrsb'] using pre.hrsb
      · simpa [hclen'] using pre.hclen
      · simpa [hpb'] using pre.hpb
      · simpa [hrb'] using pre.hrb
      · rw [specInds_append_same true bs]
        rw [← pre.hone, if_neg hs]
        simp [pre.hso]
      · simpa [specInds_append_other false true bs (by simp)] using pre.hsz
      · simpa [hclen'] using pre.hblen
      · simpa using pre.hbw
      · intro j hj
        rw [hbc] at hj
        rw [hps j (by omega), hbo j hj, hbb j hj]
        exact pre.hfields j hj
      · intro q hq
        rw [hclen'] at hq
        exact pre.hhi q hq


theorem invPre_noflush (bs : List Bool) (rs : RSDic) (inv : Inv bs rs)
    (h64 : bs.length % 64 ≠ 0) : InvPre bs rs := by
  have hm : blockCnt bs = bs.length / 64 := by
    rw [blockCnt, if_neg (by omega)]
    omega
  have hl : largeCnt bs = bs.length / 1024 + 1 := by
    rw [largeCnt, if_neg (by omega)]
    omega
  refine ⟨inv.hnum, inv.hone, inv.hzero, ?_, ?_, ?_, ?_, ?_, ?_, ?_, inv.hso, inv.hsz,
    ?_, inv.hbw, ?_, ?_⟩
  · rw [inv.hlastB, pendingBits, hm]
  · rw [inv.hlastOne, pendingBits, hm]
  · rw [inv.hlastZero, pendingBits, hm]
  · rw [inv.hrsb, hm]
  · rw [inv.hclen, hm]
  · rw [inv.hpb, hl]
  · rw [inv.hrb, hl]
  · rw [inv.hblen, hm]
  · intro j hj
    exact inv.hfields j (by omega)
  · intro q hq
    apply inv.hhi
    rw [hm]
    exact hq

theorem invPre_empty (rs : RSDic) (inv : Inv [] rs) : InvPre [] (writeBlock rs) := by
  have h1 : rs.num = 0 := by simpa using inv.hnum
  have h8 : rs.codeLen = 0 := by simpa [blockCnt, ptrSum] using inv.hclen
  have h9 : rs.pointerBlocks = [] := by simpa [largeCnt] using inv.hpb
  have h10 : rs.rankBlocks = [] := by simpa [largeCnt] using inv.hrb
  have h2 : rs.oneNum = 0 := by simpa using inv.hone
  have heq : writeBlock rs = { rs with rankBlocks := [0], pointerBlocks := [0] } := by
    simp [writeBlock, h1, h8, h9, h10, h2]
  rw [heq]
  refine ⟨by simpa using inv.hnum, by simpa using inv.hone, by simpa using inv.hzero,
    by simpa using inv.hlastB, by simpa using inv.hlastOne, by simpa using inv.hlastZero,
    by simpa using inv.hrsb, by simpa [blockCnt] using inv.hclen, ?_, ?_,
    inv.hso, inv.hsz, by simpa [blockCnt] using inv.hblen, inv.hbw, ?_, ?_⟩
  · simp [ptrSum, List.range_succ]
  · simp [oneCnt, List.range_succ]
  · intro j hj
    simp at hj
  · intro q hq
    have h13 : rs.bits = [] := by
      have := inv.hblen
      simp [blockCnt, ptrSum, floor] at this
      exact this
    simp only [h13]
    exact streamBit_nil q

theorem invPre_flush (bs : List Bool) (rs : RSDic) (inv : Inv bs rs)
    (h64 : bs.length % 64 = 0) (hn : 0 < bs.length) : InvPre bs (writeBlock rs) := by
  have hm : blockCnt bs = bs.length / 64 - 1 := by
    rw [blockCnt, if_neg (by omega)]
    omega
  have hn64 : 64 ≤ bs.length := by omega
  have hq1 : bs.length / 64 = blockCnt bs + 1 := by omega
  have hmul : 64 * blockCnt bs ≤ bs.length := blockCnt_mul_le bs
  have hpendlen : (pendingBits bs).length = 64 := by
    rw [pendingBits_length]
    omega
  have hpendeq : blockBits bs (blockCnt bs) = pendingBits bs := by
    rw [blockBits, pendingBits]
    apply List.take_of_length_le
    rw [List.length_drop]
    omega
  have hc64 : (pendingBits bs).count true ≤ 64 := by
    have := List.count_le_length (l := pendingBits bs) (a := true)
    omega
  have hlastc : rs.lastOneNum % 256 = (pendingBits bs).count true := by
    rw [inv.hlastOne]
    exact Nat.mod_eq_of_lt (by omega)
  have hl64 : enumCodeLength ((pendingBits bs).count true) ≤ 64 := enumCodeLength_le _
  have hbitseq : bitsOfNat 64 (natOfBits (pendingBits bs)) = pendingBits bs := by
    have := bitsOfNat_natOfBits (pendingBits bs)
    rwa [hpendlen] at this
  have hvlt : natOfBits (pendingBits bs) < 2 ^ 64 := by
    have := natOfBits_lt (pendingBits bs)
    rwa [hpendlen] at this
  have hcodelt : enumEncode (natOfBits (pendingBits bs)) ((pendingBits bs).count true) <
      2 ^ enumCodeLength ((pendingBits bs).count true) :=
    enumEncode_lt _ _ (by rw [hbitseq]) hvlt
  have hblockm : blockOnes bs (blockCnt bs) = (pendingBits bs).count true := by
    rw [blockOnes, hpendeq]
  have hpsucc : ptrSum bs (blockCnt bs + 1) =
      ptrSum bs (blockCnt bs) + enumCodeLength ((pendingBits bs).count true) := by
    rw [ptrSum_succ, hblockm]
  -- facts about the (possibly grown) word array
  have hcode2 : enumEncode rs.lastBlock (rs.lastOneNum % 256) =
      enumEncode (natOfBits (pendingBits bs)) ((pendingBits bs).count true) := by
    rw [inv.hlastB, hlastc]
  have hlenr2 : enumCodeLength (rs.lastOneNum % 256) =
      enumCodeLength ((pendingBits bs).count true) := by
    rw [hlastc]
  have hPr : rs.codeLen = ptrSum bs (blockCnt bs) := inv.hclen
  have hlen1 : (if floor (rs.codeLen + enumCodeLength (rs.lastOneNum % 256)) 64 >
      rs.bits.length then rs.bits ++ [0] else rs.bits).length =
      floor (ptrSum bs (blockCnt bs + 1)) 64 := by
    have hold : rs.bits.length = floor (ptrSum bs (blockCnt bs)) 64 := inv.hblen
    rw [hlenr2, hPr, hpsucc]
    by_cases happ : floor (ptrSum bs (blockCnt bs) +
        enumCodeLength ((pendingBits bs).count true)) 64 > rs.bits.length
    · rw [if_pos happ, List.length_append, List.length_singleton]
      simp only [floor] at hold happ ⊢
      omega
    · rw [if_neg happ]
      simp only [floor] at hold happ ⊢
      omega
  have hs1 : ∀ q, streamBit (if floor (rs.codeLen + enumCodeLength (rs.lastOneNum % 256)) 64 >
      rs.bits.length then rs.bits ++ [0] else rs.bits) q = streamBit rs.bits q := by
    intro q
    split
    · exact streamBit_append_zero _ q
    · rfl
  have hw1 : ∀ w ∈ (if floor (rs.codeLen + enumCodeLength (rs.lastOneNum % 256)) 64 >
      rs.bits.length then rs.bits ++ [0] else rs.bits), w < 2 ^ 64 := by
    intro w hw
    split at hw
    · rcases List.mem_append.mp hw with h | h
      · exact inv.hbw w h
      · simp at h
        omega
    · exact inv.hbw w hw
  have hbound : rs.codeLen + enumCodeLength (rs.lastOneNum % 256) ≤
      64 * (if floor (rs.codeLen + enumCodeLength (rs.lastOneNum % 256)) 64 >
        rs.bits.length then rs.bits ++ [0] else rs.bits).length := by
    rw [hlen1, hlenr2, hPr, hpsucc, floor]
    omega
  have hstream2 := fun q => streamBit_setSlice
    (if floor (rs.codeLen + enumCodeLength (rs.lastOneNum % 256)) 64 >
      rs.bits.length then rs.bits ++ [0] else rs.bits)
    rs.codeLen (enumCodeLength (rs.lastOneNum % 256))
    (enumEncode rs.lastBlock (rs.lastOneNum % 256)) q
    (by rw [hlenr2]; exact hl64)
    (by rw [hlenr2, hcode2]; exact hcodelt) hw1 hbound
  have hw2 : ∀ w ∈ setSlice (if floor (rs.codeLen + enumCodeLength (rs.lastOneNum % 256)) 64 >
      rs.bits.length then rs.bits ++ [0] else rs.bits)
      rs.codeLen (enumCodeLength (rs.lastOneNum % 256))
      (enumEncode rs.lastBlock (rs.lastOneNum % 256)), w < 2 ^ 64 := by
    apply entries_lt_setSlice _ _ _ _ hw1
    rw [hcode2]
    calc enumEncode (natOfBits (pendingBits bs)) ((pendingBits bs).count true) <
        2 ^ enumCodeLength ((pendingBits bs).count true) := hcodelt
      _ ≤ 2 ^ 64 := Nat.pow_le_pow_right (by omega) hl64
  by_cases h1024 : rs.num % 1024 = 0
  · have heq : writeBlock rs = { rs with
        rankSmallBlocks := rs.rankSmallBlocks ++ [rs.lastOneNum % 256],
        bits := setSlice (if floor (rs.codeLen + enumCodeLength (rs.lastOneNum % 256)) 64 >
          rs.bits.length then rs.bits ++ [0] else rs.bits)
          rs.codeLen (enumCodeLength (rs.lastOneNum % 256))
          (enumEncode rs.lastBlock (rs.lastOneNum % 256)),
        lastBlock := 0, lastZeroNum := 0, lastOneNum := 0,
        codeLen := rs.codeLen + enumCodeLength (rs.lastOneNum % 256),
        rankBlocks := rs.rankBlocks ++ [rs.oneNum],
        pointerBlocks := rs.pointerBlocks ++
          [rs.codeLen + enumCodeLength (rs.lastOneNum % 256)] } := by
      have hnum0 : 0 < rs.num := by rw [inv.hnum]; omega
      simp [writeBlock, hnum0, h1024]
    have h1024n : bs.length % 1024 = 0 := by rw [← inv.hnum]; exact h1024
    have hlcn : largeCnt bs = bs.length / 1024 := by
      rw [largeCnt, if_neg (by omega)]
      omega
    have hdropn : 64 * (bs.length / 64) = bs.length := by omega
    rw [heq]
    refine ⟨inv.hnum, inv.hone, inv.hzero, ?_, ?_, ?_, ?_, ?_, ?_, ?_, inv.hso, inv.hsz,
      ?_, hw2, ?_, ?_⟩
    · rw [hdropn, List.drop_length]
      rfl
    · rw [hdropn, List.drop_length]
      rfl
    · rw [hdropn, List.drop_length]
      rfl
    · dsimp only
      rw [hq1, List.range_succ, List.map_append, ← inv.hrsb, hlastc]
      simp [hblockm]
    · dsimp only
      rw [hq1, hpsucc, hPr, hlastc]
    · dsimp only
      rw [List.range_succ, List.map_append]
      congr 1
      · rw [inv.hpb, hlcn]
      · simp only [List.map_cons, List.map_nil]
        have h16 : 16 * (bs.length / 1024) = blockCnt bs + 1 := by omega
        rw [h16, hpsucc, hPr, hlastc]
    · dsimp only
      rw [List.range_succ, List.map_append]
      congr 1
      · rw [inv.hrb, hlcn]
      · simp only [List.map_cons, List.map_nil]
        have h1024m : 1024 * (bs.length / 1024) = bs.length := by omega
        rw [h1024m, oneCnt, List.take_length, inv.hone]
    · dsimp only
      rw [length_setSlice, hlen1, hq1]
    · intro j hj
      dsimp only
      rw [hq1] at hj
      rcases Nat.lt_or_ge j (blockCnt bs) with hjm | hjm
      · rw [getSlice_congr _ rs.bits (ptrSum bs j) (enumCodeLength (blockOnes bs j))
          (enumCodeLength_le _) hw2 inv.hbw ?_]
        · exact inv.hfields j hjm
        · intro i hi
          have hqlt : ptrSum bs j + i < ptrSum bs (blockCnt bs) := by
            have h1 : ptrSum bs j + enumCodeLength (blockOnes bs j) = ptrSum bs (j + 1) :=
              (ptrSum_succ bs j).symm
            have h2 : ptrSum bs (j + 1) ≤ ptrSum bs (blockCnt bs) :=
              ptrSum_mono bs (j + 1) (blockCnt bs) (by omega)
            omega
          rw [hstream2 (ptrSum bs j + i), if_neg (by rw [hPr]; omega), hs1]
      · have hjeq : j = blockCnt bs := by omega
        rw [hjeq, hblockm, hpendeq]
        apply getSlice_eq_val _ _ _ _ hl64 hcodelt hw2
        intro i hi
        rw [hstream2 (ptrSum bs (blockCnt bs) + i),
          if_pos (by rw [hPr, hlenr2]; omega), hs1, hcode2,
          inv.hhi _ (by omega), hPr, Nat.add_sub_cancel_left]
        simp
    · intro q hq
      dsimp only
      rw [hq1, hpsucc] at hq
      rw [hstream2 q, if_neg (by rw [hPr, hlenr2]; omega), hs1]
      exact inv.hhi q (by omega)
  · have heq : writeBlock rs = { rs with
        rankSmallBlocks := rs.rankSmallBlocks ++ [rs.lastOneNum % 256],
        bits := setSlice (if floor (rs.codeLen + enumCodeLength (rs.lastOneNum % 256)) 64 >
          rs.bits.length then rs.bits ++ [0] else rs.bits)
          rs.codeLen (enumCodeLength (rs.lastOneNum % 256))
          (enumEncode rs.lastBlock (rs.lastOneNum % 256)),
        lastBlock := 0, lastZeroNum := 0, lastOneNum := 0,
        codeLen := rs.codeLen + enumCodeLength (rs.lastOneNum % 256) } := by
      have hnum0 : 0 < rs.num := by rw [inv.hnum]; omega
      simp [writeBlock, hnum0, h1024]
    have h1024n : bs.length % 1024 ≠ 0 := by rw [← inv.hnum]; exact h1024
    have hlcn : largeCnt bs = bs.length / 1024 + 1 := by
      rw [largeCnt, if_neg (by omega)]
      omega
    have hdropn : 64 * (bs.length / 64) = bs.length := by omega
    rw [heq]
    refine ⟨inv.hnum, inv.hone, inv.hzero, ?_, ?_, ?_, ?_, ?_, ?_, ?_, inv.hso, inv.hsz,
      ?_, hw2, ?_, ?_⟩
    · rw [hdropn, List.drop_length]
      rfl
    · rw [hdropn, List.drop_length]
      rfl
    · rw [hdropn, List.drop_length]
      rfl
    · dsimp only
      rw [hq1, List.range_succ, List.map_append, ← inv.hrsb, hlastc]
      simp [hblockm]
    · dsimp only
      rw [hq1, hpsucc, hPr, hlastc]
    · dsimp only
      rw [← hlcn, ← inv.hpb]
    · dsimp only
      rw [← hlcn, ← inv.hrb]
    · dsimp only
      rw [length_setSlice, hlen1, hq1]
    · intro j hj
      dsimp only
      rw [hq1] at hj
      rcases Nat.lt_or_ge j (blockCnt bs) with hjm | hjm
      · rw [getSlice_congr _ rs.bits (ptrSum bs j) (enumCodeLength (blockOnes bs j))
          (enumCodeLength_le _) hw2 inv.hbw ?_]
        · exact inv.hfields j hjm
        · intro i hi
          have hqlt : ptrSum bs j + i < ptrSum bs (blockCnt bs) := by
            have h1 : ptrSum bs j + enumCodeLength (blockOnes bs j) = ptrSum bs (j + 1) :=
              (ptrSum_succ bs j).symm
            have h2 : ptrSum bs (j + 1) ≤ ptrSum bs (blockCnt bs) :=
              ptrSum_mono bs (j + 1) (blockCnt bs) (by omega)
            omega
          rw [hstream2 (ptrSum bs j + i), if_neg (by rw [hPr]; omega), hs1]
      · have hjeq : j = blockCnt bs := by omega
        rw [hjeq, hblockm, hpendeq]
        apply getSlice_eq_val _ _ _ _ hl64 hcodelt hw2
        intro i hi
        rw [hstream2 (ptrSum bs (blockCnt bs) + i),
          if_pos (by rw [hPr, hlenr2]; omega), hs1, hcode2,
          inv.hhi _ (by omega), hPr, Nat.add_sub_cancel_left]
        simp
    · intro q hq
      dsimp only
      rw [hq1, hpsucc] at hq
      rw [hstream2 q, if_neg (by rw [hPr, hlenr2]; omega), hs1]
      exact inv.hhi q (by omega)

theorem inv_pushBack (bs : List Bool) (rs : RSDic) (b : Bool) (inv : Inv bs rs) :
    Inv (bs ++ [b]) (PushBack rs b) := by
  rw [PushBack_eq_pushBits]
  by_cases h64 : rs.num % 64 = 0
  · rw [if_pos h64]
    rcases Nat.eq_zero_or_pos bs.length with h0 | h0
    · have hbs : bs = [] := List.length_eq_zero.mp h0
      subst hbs
      exact inv_bitphase [] b _ (invPre_empty rs inv)
    · exact inv_bitphase bs b _
        (invPre_flush bs rs inv (by rw [← inv.hnum]; exact h64) h0)
  · rw [if_neg h64]
    exact inv_bitphase bs b _ (invPre_noflush bs rs inv (by rw [← inv.hnum]; exact h64))

theorem inv_New : Inv [] New := by
  refine ⟨rfl, rfl, rfl, rfl, rfl, rfl, rfl, rfl, ?_, ?_, rfl, rfl, by decide, ?_, ?_, ?_⟩
  · decide
  · decide
  · intro w hw
    simp [New] at hw
  · intro j hj
    simp [blockCnt] at hj
  · intro q hq
    exact streamBit_nil q

theorem inv_rsdicOf (bs : List Bool) : Inv bs (rsdicOf bs) := by
  induction bs using List.reverseRecOn with
  | nil => exact inv_New
  | append_singleton l a ih =>
    rw [rsdicOf, List.foldl_append, List.foldl_cons, List.foldl_nil]
    exact inv_pushBack l _ a ih

/-! ### Query correctness: supporting lemmas -/

theorem getD_drop (l : List Bool) (k i : Nat) (d : Bool) :
    (l.drop k).getD i d = l.getD (k + i) d := by
  rw [List.getD_eq_getElem?_getD, List.getD_eq_getElem?_getD, List.getElem?_drop]

theorem getD_take (l : List Bool) (k i : Nat) (d : Bool) (h : i < k) :
    (l.take k).getD i d = l.getD i d := by
  rw [List.getD_eq_getElem?_getD, List.getD_eq_getElem?_getD, List.getElem?_take_of_lt h]

theorem count_true_add_count_false (l : List Bool) :
    l.count true + l.count false = l.length := by
  induction l with
  | nil => simp
  | cons b t ih =>
    cases b <;> simp [List.count_cons] <;> omega

theorem wrapSub_eq (a b : Nat) (h : b ≤ a) : wrapSub a b = a - b := by
  rw [wrapSub, if_pos h]

theorem natOfBits_shiftRight (l : List Bool) (j : Nat) :
    natOfBits l >>> j = natOfBits (l.drop j) := by
  apply Nat.eq_of_testBit_eq
  intro i
  rw [Nat.testBit_shiftRight, testBit_natOfBits, testBit_natOfBits, getD_drop]

theorem bitsOfNat_natOfBits_pad (l : List Bool) (len : Nat) (h : l.length ≤ len) :
    bitsOfNat len (natOfBits l) = l ++ List.replicate (len - l.length) false := by
  apply List.ext_getElem (by simp [bitsOfNat_length]; omega)
  intro i h1 h2
  have h1n : i < len := by rwa [bitsOfNat_length] at h1
  have hL : (bitsOfNat len (natOfBits l)).getD i false =
      (l ++ List.replicate (len - l.length) false).getD i false := by
    rw [getD_bitsOfNat _ _ _ _ h1n, testBit_natOfBits]
    rcases lt_or_le i l.length with hi | hi
    · rw [List.getD_eq_getElem?_getD (l ++ _), List.getElem?_append_left hi,
        ← List.getD_eq_getElem?_getD]
    · rw [List.getD_eq_getElem?_getD l, List.getElem?_eq_none hi,
        List.getD_eq_getElem?_getD, List.getElem?_append_right hi]
      rcases lt_or_le (i - l.length) (len - l.length) with h3 | h3
      · rw [List.getElem?_eq_getElem (by simpa using h3)]
        simp
      · rw [List.getElem?_eq_none (by simpa using h3)]
  rw [List.getD_eq_getElem?_getD, List.getD_eq_getElem?_getD,
    List.getElem?_eq_getElem h1, List.getElem?_eq_getElem h2] at hL
  simpa using hL

theorem onesCount64_natOfBits (l : List Bool) (h : l.length ≤ 64) :
    onesCount64 (natOfBits l) = l.count true := by
  have : onesCount64 (natOfBits l) = (bitsOfNat 64 (natOfBits l)).count true := rfl
  rw [this, bitsOfNat_natOfBits_pad l 64 h, List.count_append]
  simp [List.count_replicate]

theorem lastBlockInd_eq (bs : List Bool) (rs : RSDic) (inv : Inv bs rs) :
    lastBlockInd rs = 64 * blockCnt bs := by
  rw [lastBlockInd, inv.hnum, blockCnt]
  split
  · simp
  · omega

theorem length_upper (bs : List Bool) : bs.length ≤ 64 * blockCnt bs + 64 := by
  rw [blockCnt]
  split
  · omega
  · omega

theorem getD_rsb (bs : List Bool) (rs : RSDic) (inv : Inv bs rs) (j : Nat)
    (hj : j < blockCnt bs) : rs.rankSmallBlocks.getD j 0 = blockOnes bs j := by
  rw [inv.hrsb]
  exact getD_map_range _ _ _ _ hj

theorem getD_pb (bs : List Bool) (rs : RSDic) (inv : Inv bs rs) (L : Nat)
    (hL : L < largeCnt bs) : rs.pointerBlocks.getD L 0 = ptrSum bs (16 * L) := by
  rw [inv.hpb]
  exact getD_map_range _ _ _ _ hL

theorem getD_rb (bs : List Bool) (rs : RSDic) (inv : Inv bs rs) (L : Nat)
    (hL : L < largeCnt bs) : rs.rankBlocks.getD L 0 = oneCnt bs (1024 * L) := by
  rw [inv.hrb]
  exact getD_map_range _ _ _ _ hL

theorem oneCnt_block (bs : List Bool) (s : Nat) :
    oneCnt bs (64 * s + 64) = oneCnt bs (64 * s) + blockOnes bs s := by
  rw [oneCnt, oneCnt, blockOnes, blockBits, List.take_add, List.count_append]

theorem bitLoop_eq (bs : List Bool) (rs : RSDic) (inv : Inv bs rs) :
    ∀ (k s : Nat), s + k ≤ blockCnt bs →
    (List.range' s k).foldl (fun p i => p + enumCodeLength (rs.rankSmallBlocks.getD i 0))
      (ptrSum bs s) = ptrSum bs (s + k) := by
  intro k
  induction k with
  | zero =>
    intro s h
    simp
  | succ k ih =>
    intro s h
    rw [List.range'_succ, List.foldl_cons, getD_rsb bs rs inv s (by omega), ← ptrSum_succ]
    have := ih (s + 1) (by omega)
    rw [show s + (k + 1) = s + 1 + k by omega]
    exact this

theorem rankLoop_eq (bs : List Bool) (rs : RSDic) (inv : Inv bs rs) :
    ∀ (k s : Nat), s + k ≤ blockCnt bs →
    (List.range' s k).foldl
      (fun (pr : Nat × Nat) i =>
        (pr.1 + enumCodeLength (rs.rankSmallBlocks.getD i 0), pr.2 + rs.rankSmallBlocks.getD i 0))
      (ptrSum bs s, oneCnt bs (64 * s)) = (ptrSum bs (s + k), oneCnt bs (64 * (s + k))) := by
  intro k
  induction k with
  | zero =>
    intro s h
    simp
  | succ k ih =>
    intro s h
    rw [List.range'_succ, List.foldl_cons]
    have hstep : ((ptrSum bs s, oneCnt bs (64 * s)) : Nat × Nat).1 +
        enumCodeLength (rs.rankSmallBlocks.getD s 0) = ptrSum bs (s + 1) := by
      rw [getD_rsb bs rs inv s (by omega), ← ptrSum_succ]
    have hstep2 : ((ptrSum bs s, oneCnt bs (64 * s)) : Nat × Nat).2 +
        rs.rankSmallBlocks.getD s 0 = oneCnt bs (64 * (s + 1)) := by
      rw [getD_rsb bs rs inv s (by omega)]
      have := oneCnt_block bs s
      have harith : 64 * (s + 1) = 64 * s + 64 := by omega
      rw [harith, this]
    rw [hstep, hstep2]
    have := ih (s + 1) (by omega)
    rw [show s + (k + 1) = s + 1 + k by omega]
    exact this

theorem blockBits_length (bs : List Bool) (j : Nat) (hj : j < blockCnt bs) :
    (blockBits bs j).length = 64 := by
  have := blockCnt_mul_le bs
  rw [blockBits, List.length_take, List.length_drop]
  omega

theorem blockBits_count (bs : List Bool) (j : Nat) (hj : j < blockCnt bs) :
    blockOnes bs j = (bitsOfNat 64 (natOfBits (blockBits bs j))).count true := by
  have hb := bitsOfNat_natOfBits (blockBits bs j)
  rw [blockBits_length bs j hj] at hb
  rw [hb, blockOnes]

theorem blockBits_val_lt (bs : List Bool) (j : Nat) (hj : j < blockCnt bs) :
    natOfBits (blockBits bs j) < 2 ^ 64 := by
  have := natOfBits_lt (blockBits bs j)
  rwa [blockBits_length bs j hj] at this

theorem bit_correct (bs : List Bool) (rs : RSDic) (inv : Inv bs rs) (pos : Nat)
    (hpos : pos < bs.length) : Bit rs pos = bs.getD pos false := by
  have hlbi := lastBlockInd_eq bs rs inv
  have hub := length_upper bs
  have hmul := blockCnt_mul_le bs
  rw [Bit, isLastBlock, hlbi]
  by_cases hge : 64 * blockCnt bs ≤ pos
  · rw [if_pos (by simpa using hge)]
    rw [getBit_eq_testBit, inv.hlastB, testBit_natOfBits, pendingBits, getD_drop]
    congr 1
    omega
  · rw [if_neg (by simpa using hge)]
    dsimp only
    have hSm : pos / 64 < blockCnt bs := by omega
    have hL : pos / 1024 < largeCnt bs := by
      rw [largeCnt, if_neg (by omega)]
      omega
    rw [getD_pb bs rs inv _ hL]
    have hcomm : 16 * (pos / 1024) = pos / 1024 * 16 := by omega
    rw [hcomm]
    have hloop := bitLoop_eq bs rs inv (pos / 64 - pos / 1024 * 16) (pos / 1024 * 16)
      (by omega)
    rw [show pos / 1024 * 16 + (pos / 64 - pos / 1024 * 16) = pos / 64 by omega] at hloop
    rw [hloop, getD_rsb bs rs inv _ hSm, inv.hfields _ hSm,
      enumBit_enumEncode _ _ (blockBits_count bs _ hSm) (blockBits_val_lt bs _ hSm),
      testBit_natOfBits, blockBits, getD_take _ _ _ _ (by omega), getD_drop]
    congr 1
    omega

theorem count_le_len (b : Bool) (l : List Bool) : l.count b ≤ l.length :=
  List.count_le_length b l

theorem bitNum_count (bs : List Bool) (pos : Nat) (x : Nat) (b : Bool)
    (hx : x = (bs.take pos).count true) (hpos : pos ≤ bs.length) :
    bitNum x pos b = (bs.take pos).count b := by
  subst hx
  have htc : (bs.take pos).count true ≤ pos := by
    have := count_le_len true (bs.take pos)
    rw [List.length_take] at this
    omega
  have hcnt : (bs.take pos).count true + (bs.take pos).count false = pos := by
    have := count_true_add_count_false (bs.take pos)
    rwa [List.length_take, Nat.min_eq_left hpos] at this
  cases b
  · rw [bitNum, if_neg (by simp), wrapSub_eq _ _ htc]
    omega
  · rw [bitNum, if_pos rfl]

theorem rank_correct (bs : List Bool) (rs : RSDic) (inv : Inv bs rs) (pos : Nat)
    (b : Bool) : Rank rs pos b = (bs.take pos).count b := by
  have hlbi := lastBlockInd_eq bs rs inv
  have hub := length_upper bs
  have hmul := blockCnt_mul_le bs
  rw [Rank, inv.hnum]
  by_cases hout : pos ≥ bs.length
  · rw [if_pos (by simpa using hout)]
    have htake : bs.take pos = bs.take bs.length := by
      rw [List.take_length, List.take_of_length_le (by omega)]
    rw [htake]
    apply bitNum_count bs bs.length _ b _ (le_refl _)
    rw [List.take_length, inv.hone]
  · rw [if_neg (by simpa using hout)]
    rw [isLastBlock, hlbi]
    by_cases hge : 64 * blockCnt bs ≤ pos
    · rw [if_pos (by simpa using hge)]
      have hafter : onesCount64 (rs.lastBlock >>> (pos % 64)) = (bs.drop pos).count true := by
        rw [inv.hlastB, pendingBits, natOfBits_shiftRight, List.drop_drop]
        rw [onesCount64_natOfBits _ (by rw [List.length_drop]; omega)]
        congr 2
        omega
      rw [hafter]
      apply bitNum_count bs pos _ b _ (by omega)
      have hsplit := count_take_add_count_drop true bs pos
      rw [inv.hone, wrapSub_eq _ _ (by omega)]
      omega
    · rw [if_neg (by simpa using hge)]
      dsimp only
      have hSm : pos / 64 < blockCnt bs := by omega
      have hL : pos / 1024 < largeCnt bs := by
        rw [largeCnt, if_neg (by omega)]
        omega
      rw [getD_pb bs rs inv _ hL, getD_rb bs rs inv _ hL]
      have hcomm : 16 * (pos / 1024) = pos / 1024 * 16 := by omega
      have hcomm2 : 1024 * (pos / 1024) = 64 * (pos / 1024 * 16) := by omega
      rw [hcomm, hcomm2]
      have hloop := rankLoop_eq bs rs inv (pos / 64 - pos / 1024 * 16) (pos / 1024 * 16)
        (by omega)
      rw [show pos / 1024 * 16 + (pos / 64 - pos / 1024 * 16) = pos / 64 by omega] at hloop
      rw [hloop]
      have htake : (bs.take pos).count true =
          oneCnt bs (64 * (pos / 64)) +
            ((blockBits bs (pos / 64)).take (pos % 64)).count true := by
        rw [oneCnt, blockBits, List.take_take, Nat.min_eq_left (by omega), ← List.count_append,
          ← List.take_add]
        congr 2
        omega
      by_cases hmod : pos % 64 = 0
      · rw [if_pos hmod]
        apply bitNum_count bs pos _ b _ (by omega)
        rw [htake, hmod]
        simp
      · rw [if_neg hmod]
        dsimp only
        rw [getD_rsb bs rs inv _ hSm, inv.hfields _ hSm,
          enumRank_enumEncode _ _ (blockBits_count bs _ hSm) (blockBits_val_lt bs _ hSm)]
        have hb64 := bitsOfNat_natOfBits (blockBits bs (pos / 64))
        rw [blockBits_length bs _ hSm] at hb64
        rw [hb64]
        exact bitNum_count bs pos _ b htake.symm (by omega)

/-! ### Select correctness -/

theorem select1LLoop_exact (rbs : List Nat) (k : Nat) :
    ∀ (fuel L0 Lt : Nat), L0 ≤ Lt → Lt ≤ L0 + fuel →
    (∀ L, L0 ≤ L → L < Lt → ¬k < rbs.getD L 0) →
    (Lt = L0 + fuel ∨ k < rbs.getD Lt 0) →
    select1LLoop rbs k fuel L0 = Lt := by
  intro fuel
  induction fuel with
  | zero =>
    intro L0 Lt hle hfuel hskip hstop
    have : L0 = Lt := by omega
    rw [select1LLoop, this]
  | succ fuel ih =>
    intro L0 Lt hle hfuel hskip hstop
    rcases Nat.eq_or_lt_of_le hle with rfl | hlt
    · have hk : k < rbs.getD L0 0 := by
        rcases hstop with h | h
        · omega
        · exact h
      rw [select1LLoop, if_pos hk]
    · rw [select1LLoop, if_neg (hskip L0 (le_refl _) hlt)]
      apply ih (L0 + 1) Lt (by omega) (by omega)
      · intro L h1 h2
        exact hskip L (by omega) h2
      · rcases hstop with h | h
        · left
          omega
        · right
          exact h

theorem select1SLoop_spec (bs : List Bool) (rs : RSDic) (inv : Inv bs rs) (k : Nat)
    (St : Nat) (hSt : St < blockCnt bs) (hbase : oneCnt bs (64 * St) ≤ k)
    (hstop : k < oneCnt bs (64 * (St + 1))) :
    ∀ (fuel s : Nat), s ≤ St → St < s + fuel →
    (∀ i, s ≤ i → i < St → oneCnt bs (64 * (i + 1)) ≤ k) →
    select1SLoop rs.rankSmallBlocks fuel s (k - oneCnt bs (64 * s) + 1) (ptrSum bs s) =
      (St, k - oneCnt bs (64 * St) + 1, ptrSum bs St) := by
  intro fuel
  induction fuel with
  | zero =>
    intro s hs hfuel hskip
    omega
  | succ fuel ih =>
    intro s hs hfuel hskip
    rcases Nat.eq_or_lt_of_le hs with rfl | hlt
    · rw [select1SLoop]
      rw [getD_rsb bs rs inv s hSt]
      have hcond : k - oneCnt bs (64 * s) + 1 ≤ blockOnes bs s := by
        have hblock : oneCnt bs (64 * (s + 1)) = oneCnt bs (64 * s) + blockOnes bs s := by
          rw [show 64 * (s + 1) = 64 * s + 64 by omega]
          exact oneCnt_block bs s
        omega
      rw [if_pos hcond]
    · have hsm : s < blockCnt bs := by omega
      have hnext : oneCnt bs (64 * (s + 1)) ≤ k := hskip s (le_refl _) hlt
      have hblock : oneCnt bs (64 * (s + 1)) = oneCnt bs (64 * s) + blockOnes bs s := by
        rw [show 64 * (s + 1) = 64 * s + 64 by omega]
        exact oneCnt_block bs s
      have hbase0 : oneCnt bs (64 * s) ≤ k := by omega
      rw [select1SLoop]
      rw [getD_rsb bs rs inv s hsm]
      rw [if_neg (by omega)]
      have harg1 : k - oneCnt bs (64 * s) + 1 - blockOnes bs s =
          k - oneCnt bs (64 * (s + 1)) + 1 := by omega
      have harg2 : ptrSum bs s + enumCodeLength (blockOnes bs s) = ptrSum bs (s + 1) :=
        (ptrSum_succ bs s).symm
      rw [harg1, harg2]
      exact ih (s + 1) (by omega) (by omega) (fun i h1 h2 => hskip i (by omega) h2)

theorem select1_correct (bs : List Bool) (rs : RSDic) (inv : Inv bs rs) (k : Nat)
    (hk : k < bs.count true) (hn : bs.length < 2 ^ 64) :
    Select1 rs k = selIdx true bs k := by
  have hmul := blockCnt_mul_le bs
  have hub := length_upper bs
  have hlbi := lastBlockInd_eq bs rs inv
  have hkn : bs.count true ≤ bs.length := count_le_len true bs
  have hsplitbs : bs.take (64 * blockCnt bs) ++ bs.drop (64 * blockCnt bs) = bs :=
    List.take_append_drop _ _
  have hcountsplit := count_take_add_count_drop true bs (64 * blockCnt bs)
  have hdroplen : (bs.drop (64 * blockCnt bs)).length = bs.length - 64 * blockCnt bs :=
    List.length_drop _ _
  have honeF : wrapSub rs.oneNum rs.lastOneNum = oneCnt bs (64 * blockCnt bs) := by
    rw [inv.hone, inv.hlastOne, pendingBits, wrapSub_eq _ _ (by omega), oneCnt]
    omega
  rw [Select1, if_neg (by rw [inv.hone]; omega), honeF]
  by_cases hpend : oneCnt bs (64 * blockCnt bs) ≤ k
  · rw [if_pos (by omega)]
    dsimp only
    have hkr : k - oneCnt bs (64 * blockCnt bs) < (bs.drop (64 * blockCnt bs)).count true := by
      rw [oneCnt] at hpend ⊢
      omega
    have hdc : (bs.drop (64 * blockCnt bs)).count true ≤ 64 := by
      have := count_le_len true (bs.drop (64 * blockCnt bs))
      omega
    have h256 : (k - oneCnt bs (64 * blockCnt bs)) % 256 = k - oneCnt bs (64 * blockCnt bs) :=
      Nat.mod_eq_of_lt (by omega)
    rw [h256, selectRaw, inv.hlastB, pendingBits, Nat.add_sub_cancel,
      bitsOfNat_natOfBits_pad _ 64 (by omega),
      selIdx_append_left _ _ _ _ hkr, hlbi]
    conv_rhs => rw [← hsplitbs]
    rw [selIdx_append_right _ _ _ _ (by rw [oneCnt] at hpend; exact hpend),
      List.length_take, Nat.min_eq_left (by omega), oneCnt]
  · rw [if_neg (by omega)]
    dsimp only
    have hkF : k < (bs.take (64 * blockCnt bs)).count true := by
      rw [oneCnt] at hpend
      omega
    have hps : selIdx true bs k = selIdx true (bs.take (64 * blockCnt bs)) k := by
      conv_lhs => rw [← hsplitbs]
      rw [selIdx_append_left _ _ _ _ hkF]
    have hplt : selIdx true bs k < 64 * blockCnt bs := by
      rw [hps]
      have := selIdx_lt_length true (bs.take (64 * blockCnt bs)) k hkF
      rw [List.length_take] at this
      omega
    have hpn : selIdx true bs k < bs.length := selIdx_lt_length true bs k hk
    have hrankp : (bs.take (selIdx true bs k)).count true = k := count_take_selIdx true bs k hk
    have hlow : ∀ i, i ≤ selIdx true bs k → (bs.take i).count true ≤ k :=
      fun i hi => take_count_le_of_le_selIdx true bs k i hk hi
    have hhigh : ∀ i, selIdx true bs k < i → k < (bs.take i).count true :=
      fun i hi => lt_count_take_of_selIdx_lt true bs k i hk hi
    have hStm : selIdx true bs k / 64 < blockCnt bs := by omega
    have hlcpos : largeCnt bs = (bs.length - 1) / 1024 + 1 := by
      rw [largeCnt, if_neg (by omega)]
    have hLt_lt : selIdx true bs k / 1024 < largeCnt bs := by omega
    have hlen_rb : rs.rankBlocks.length = largeCnt bs := by
      rw [inv.hrb]
      simp
    have hlen_rsb : rs.rankSmallBlocks.length = blockCnt bs := by
      rw [inv.hrsb]
      simp
    have hL0 : rs.selectOneInds.getD (k / 4096) 0 =
        selIdx true bs (4096 * (k / 4096)) / 1024 := by
      rw [inv.hso, specInds, ← inv.hone]
      rw [inv.hone]
      exact getD_map_range _ _ _ _ (by rw [floor]; omega)
    have hL0le : selIdx true bs (4096 * (k / 4096)) / 1024 ≤ selIdx true bs k / 1024 :=
      Nat.div_le_div_right (selIdx_mono true bs _ _ (by omega))
    rw [hL0]
    have hskipL : ∀ L, selIdx true bs (4096 * (k / 4096)) / 1024 ≤ L →
        L < selIdx true bs k / 1024 + 1 → ¬k < rs.rankBlocks.getD L 0 := by
      intro L h1 h2
      rw [getD_rb bs rs inv L (by omega)]
      push_neg
      apply hlow
      omega
    have hloopL : select1LLoop rs.rankBlocks k
        (rs.rankBlocks.length - selIdx true bs (4096 * (k / 4096)) / 1024)
        (selIdx true bs (4096 * (k / 4096)) / 1024) = selIdx true bs k / 1024 + 1 := by
      apply select1LLoop_exact rs.rankBlocks k _ _ _ (by omega) (by omega) hskipL
      rcases Nat.eq_or_lt_of_le (show selIdx true bs k / 1024 + 1 ≤ largeCnt bs by omega)
        with heq | hlt
      · left
        omega
      · right
        rw [getD_rb bs rs inv _ (by omega)]
        calc k < (bs.take (selIdx true bs k + 1)).count true := hhigh _ (by omega)
          _ ≤ (bs.take (1024 * (selIdx true bs k / 1024 + 1))).count true :=
            count_take_mono _ _ _ _ (by omega)
    rw [hloopL, wrapSub_eq _ _ (by omega), Nat.add_sub_cancel]
    rw [getD_pb bs rs inv _ hLt_lt, getD_rb bs rs inv _ hLt_lt]
    rw [wrapSub_eq _ _ (by apply hlow; omega)]
    have hmod64 : (k - oneCnt bs (1024 * (selIdx true bs k / 1024)) + 1) % 2 ^ 64 =
        k - oneCnt bs (1024 * (selIdx true bs k / 1024)) + 1 := by
      apply Nat.mod_eq_of_lt
      omega
    rw [hmod64]
    have hstartc : oneCnt bs (1024 * (selIdx true bs k / 1024)) =
        oneCnt bs (64 * (selIdx true bs k / 1024 * 16)) := by
      congr 1
      omega
    have hstartp : ptrSum bs (16 * (selIdx true bs k / 1024)) =
        ptrSum bs (selIdx true bs k / 1024 * 16) := by
      congr 1
      omega
    rw [hstartc, hstartp, hlen_rsb]
    have hblockSt : oneCnt bs (64 * (selIdx true bs k / 64 + 1)) =
        oneCnt bs (64 * (selIdx true bs k / 64)) + blockOnes bs (selIdx true bs k / 64) := by
      rw [show 64 * (selIdx true bs k / 64 + 1) = 64 * (selIdx true bs k / 64) + 64 by omega]
      exact oneCnt_block bs _
    have hstop : k < oneCnt bs (64 * (selIdx true bs k / 64 + 1)) := by
      calc k < (bs.take (selIdx true bs k + 1)).count true := hhigh _ (by omega)
        _ ≤ oneCnt bs (64 * (selIdx true bs k / 64 + 1)) :=
          count_take_mono _ _ _ _ (by omega)
    have hloopS := select1SLoop_spec bs rs inv k (selIdx true bs k / 64) hStm
      (by apply hlow; omega) hstop
      (blockCnt bs - selIdx true bs k / 1024 * 16) (selIdx true bs k / 1024 * 16)
      (by omega) (by omega)
      (by
        intro i h1 h2
        apply hlow
        omega)
    rw [hloopS]
    dsimp only
    have hcSt64 : blockOnes bs (selIdx true bs k / 64) ≤ 64 := by
      have h1 := count_le_len true (blockBits bs (selIdx true bs k / 64))
      rw [blockBits_length bs _ hStm] at h1
      exact h1
    have h256b : (k - oneCnt bs (64 * (selIdx true bs k / 64)) + 1) % 256 =
        k - oneCnt bs (64 * (selIdx true bs k / 64)) + 1 := by
      apply Nat.mod_eq_of_lt
      omega
    rw [h256b, getD_rsb bs rs inv _ hStm, inv.hfields _ hStm,
      enumSelect1_enumEncode _ _ (blockBits_count bs _ hStm) (blockBits_val_lt bs _ hStm),
      Nat.add_sub_cancel]
    have hb64 := bitsOfNat_natOfBits (blockBits bs (selIdx true bs k / 64))
    rw [blockBits_length bs _ hStm] at hb64
    rw [hb64]
    have hfinal : selIdx true bs k = 64 * (selIdx true bs k / 64) +
        selIdx true (blockBits bs (selIdx true bs k / 64))
          (k - oneCnt bs (64 * (selIdx true bs k / 64))) := by
      have hbase : oneCnt bs (64 * (selIdx true bs k / 64)) ≤ k := by
        apply hlow
        omega
      have hk3 : k - (bs.take (64 * (selIdx true bs k / 64))).count true <
          ((bs.drop (64 * (selIdx true bs k / 64))).take 64).count true := by
        have hbb : ((bs.drop (64 * (selIdx true bs k / 64))).take 64).count true =
            blockOnes bs (selIdx true bs k / 64) := rfl
        rw [hbb]
        rw [oneCnt] at hbase hblockSt hstop
        rw [oneCnt] at hblockSt
        omega
      have hsplit2 : bs.take (64 * (selIdx true bs k / 64)) ++
          bs.drop (64 * (selIdx true bs k / 64)) = bs := List.take_append_drop _ _
      conv_lhs => rw [← hsplit2]
      rw [selIdx_append_right _ _ _ _ (by rw [← oneCnt]; exact hbase),
        List.length_take, Nat.min_eq_left (by omega)]
      congr 1
      · have hsplit3 : (bs.drop (64 * (selIdx true bs k / 64))).take 64 ++
            (bs.drop (64 * (selIdx true bs k / 64))).drop 64 =
            bs.drop (64 * (selIdx true bs k / 64)) := List.take_append_drop _ _
        conv_lhs => rw [← hsplit3]
        rw [selIdx_append_left _ _ _ _ hk3, blockBits, oneCnt]
    conv_rhs => rw [hfinal]
    congr 1
    omega

theorem natOfBits_map_not (l : List Bool) :
    natOfBits (l.map not) = 2 ^ l.length - 1 - natOfBits l := by
  induction l with
  | nil => simp [natOfBits]
  | cons b t ih =>
    have hlt := natOfBits_lt t
    simp only [List.map_cons, natOfBits, List.length_cons, ih, pow_succ]
    cases b <;> simp <;> omega

theorem natOfBits_replicate_true (k : Nat) :
    natOfBits (List.replicate k true) = 2 ^ k - 1 := by
  induction k with
  | zero => simp [natOfBits]
  | succ k ih =>
    rw [List.replicate_succ, natOfBits, ih, pow_succ]
    have : 0 < 2 ^ k := Nat.pos_pow_of_pos k (by omega)
    simp
    omega

theorem count_map_not (b : Bool) (l : List Bool) : (l.map not).count b = l.count (!b) := by
  induction l with
  | nil => simp
  | cons x t ih =>
    rcases eq_or_ne (!x) b with h | h
    · have hx : x = !b := by cases x <;> cases b <;> simp_all
      rw [List.map_cons, h, List.count_cons_self, hx, List.count_cons_self, ih]
    · have hx : x ≠ !b := by cases x <;> cases b <;> simp_all
      rw [List.map_cons, List.count_cons_of_ne (Ne.symm h),
        List.count_cons_of_ne (fun hh => hx hh.symm), ih]

theorem selIdx_map_not (b : Bool) (l : List Bool) (k : Nat) :
    selIdx b (l.map not) k = selIdx (!b) l k := by
  induction l generalizing k with
  | nil => simp [selIdx]
  | cons x t ih =>
    simp only [List.map_cons, selIdx]
    rcases eq_or_ne (!x) b with h | h
    · have hx : x = !b := by cases x <;> cases b <;> simp_all
      rw [if_pos h, if_pos hx]
      rcases Nat.eq_zero_or_pos k with rfl | hk
      · rw [if_pos rfl, if_pos rfl]
      · rw [if_neg (by omega), if_neg (by omega), ih]
    · have hx : x ≠ !b := by cases x <;> cases b <;> simp_all
      rw [if_neg h, if_neg hx, ih]

theorem count_take_le_idx (b : Bool) (l : List Bool) (i : Nat) : (l.take i).count b ≤ i := by
  have h := count_le_len b (l.take i)
  rw [List.length_take] at h
  omega

theorem zeroCnt_eq (bs : List Bool) (i : Nat) (h : i ≤ bs.length) :
    (bs.take i).count false = i - oneCnt bs i := by
  have hs := count_true_add_count_false (bs.take i)
  rw [List.length_take, Nat.min_eq_left h] at hs
  rw [oneCnt]
  omega

theorem zeroCnt_block (bs : List Bool) (s : Nat) (hs : s < blockCnt bs) :
    (bs.take (64 * s + 64)).count false =
      (bs.take (64 * s)).count false + (64 - blockOnes bs s) := by
  rw [List.take_add, List.count_append]
  have hsum := count_true_add_count_false (blockBits bs s)
  rw [blockBits_length bs s hs] at hsum
  have hb : ((bs.drop (64 * s)).take 64).count false = 64 - blockOnes bs s := by
    rw [blockOnes]
    rw [blockBits] at hsum ⊢
    omega
  rw [hb]

theorem blockOnes_le (bs : List Bool) (s : Nat) (hs : s < blockCnt bs) :
    blockOnes bs s ≤ 64 := by
  have h := count_le_len true (blockBits bs s)
  rw [blockBits_length bs s hs] at h
  exact h

theorem zeroEntry_eq (c : Nat) (hc : c ≤ 64) : (256 + 64 - c) % 256 = 64 - c := by
  rw [show 256 + 64 - c = 256 + (64 - c) by omega, Nat.add_mod_left]
  exact Nat.mod_eq_of_lt (by omega)

theorem enumCodeLength_compl (c : Nat) (hc : c ≤ 64) :
    enumCodeLength (64 - c) = enumCodeLength c := by
  rw [enumCodeLength, enumCodeLength, show comb 64 (64 - c) = comb 64 c by
    rw [comb_eq_choose, comb_eq_choose, Nat.choose_symm hc]]

theorem select0LLoop_exact (rbs : List Nat) (k : Nat) :
    ∀ (fuel L0 Lt : Nat), L0 ≤ Lt → Lt ≤ L0 + fuel →
    (∀ L, L0 ≤ L → L < Lt → ¬k < wrapSub (L * 1024 % 2 ^ 64) (rbs.getD L 0)) →
    (Lt = L0 + fuel ∨ k < wrapSub (Lt * 1024 % 2 ^ 64) (rbs.getD Lt 0)) →
    select0LLoop rbs k fuel L0 = Lt := by
  intro fuel
  induction fuel with
  | zero =>
    intro L0 Lt hle hfuel hskip hstop
    have : L0 = Lt := by omega
    rw [select0LLoop, this]
  | succ fuel ih =>
    intro L0 Lt hle hfuel hskip hstop
    rcases Nat.eq_or_lt_of_le hle with rfl | hlt
    · have hkc : k < wrapSub (L0 * 1024 % 2 ^ 64) (rbs.getD L0 0) := by
        rcases hstop with h | h
        · omega
        · exact h
      rw [select0LLoop, if_pos hkc]
    · rw [select0LLoop, if_neg (hskip L0 (le_refl _) hlt)]
      apply ih (L0 + 1) Lt (by omega) (by omega)
      · intro L h1 h2
        exact hskip L (by omega) h2
      · rcases hstop with h | h
        · left
          omega
        · right
          exact h

theorem select0SLoop_spec (bs : List Bool) (rs : RSDic) (inv : Inv bs rs) (k : Nat)
    (St : Nat) (hSt : St < blockCnt bs)
    (hbase : (bs.take (64 * St)).count false ≤ k)
    (hstop : k < (bs.take (64 * (St + 1))).count false) :
    ∀ (fuel s : Nat), s ≤ St → St < s + fuel →
    (∀ i, s ≤ i → i < St → (bs.take (64 * (i + 1))).count false ≤ k) →
    select0SLoop rs.rankSmallBlocks fuel s (k - (bs.take (64 * s)).count false + 1)
      (ptrSum bs s) =
      (St, k - (bs.take (64 * St)).count false + 1, ptrSum bs St) := by
  intro fuel
  induction fuel with
  | zero =>
    intro s hs hfuel hskip
    omega
  | succ fuel ih =>
    intro s hs hfuel hskip
    rcases Nat.eq_or_lt_of_le hs with rfl | hlt
    · rw [select0SLoop]
      rw [getD_rsb bs rs inv s hSt, zeroEntry_eq _ (blockOnes_le bs s hSt)]
      have hblock : (bs.take (64 * (s + 1))).count false =
          (bs.take (64 * s)).count false + (64 - blockOnes bs s) := by
        rw [show 64 * (s + 1) = 64 * s + 64 by omega]
        exact zeroCnt_block bs s hSt
      rw [if_pos (by omega)]
    · have hsm : s < blockCnt bs := by omega
      have hnext : (bs.take (64 * (s + 1))).count false ≤ k := hskip s (le_refl _) hlt
      have hblock : (bs.take (64 * (s + 1))).count false =
          (bs.take (64 * s)).count false + (64 - blockOnes bs s) := by
        rw [show 64 * (s + 1) = 64 * s + 64 by omega]
        exact zeroCnt_block bs s hsm
      have hbase0 : (bs.take (64 * s)).count false ≤ k := by omega
      rw [select0SLoop]
      rw [getD_rsb bs rs inv s hsm, zeroEntry_eq _ (blockOnes_le bs s hsm)]
      rw [if_neg (by omega)]
      have harg1 : k - (bs.take (64 * s)).count false + 1 - (64 - blockOnes bs s) =
          k - (bs.take (64 * (s + 1))).count false + 1 := by omega
      have harg2 : ptrSum bs s + enumCodeLength (64 - blockOnes bs s) = ptrSum bs (s + 1) := by
        rw [enumCodeLength_compl _ (blockOnes_le bs s hsm)]
        exact (ptrSum_succ bs s).symm
      rw [harg1, harg2]
      exact ih (s + 1) (by omega) (by omega) (fun i h1 h2 => hskip i (by omega) h2)

theorem blockZeros_eq (bs : List Bool) (s : Nat) (hs : s < blockCnt bs) :
    ((bs.drop (64 * s)).take 64).count false = 64 - blockOnes bs s := by
  have hsum := count_true_add_count_false (blockBits bs s)
  rw [blockBits_length bs s hs] at hsum
  rw [blockOnes]
  rw [blockBits] at hsum ⊢
  omega

theorem select0_correct (bs : List Bool) (rs : RSDic) (inv : Inv bs rs) (k : Nat)
    (hk : k < bs.count false) (hn : bs.length < 2 ^ 64) :
    Select0 rs k = selIdx false bs k := by
  have hmul := blockCnt_mul_le bs
  have hub := length_upper bs
  have hlbi := lastBlockInd_eq bs rs inv
  have hkn : bs.count false ≤ bs.length := count_le_len false bs
  have hsplitbs : bs.take (64 * blockCnt bs) ++ bs.drop (64 * blockCnt bs) = bs :=
    List.take_append_drop _ _
  have hcsplit0 := count_take_add_count_drop false bs (64 * blockCnt bs)
  have hzeroF : wrapSub rs.zeroNum rs.lastZeroNum =
      (bs.take (64 * blockCnt bs)).count false := by
    rw [inv.hzero, inv.hlastZero, pendingBits, wrapSub_eq _ _ (by omega)]
    omega
  rw [Select0, if_neg (by rw [inv.hzero]; omega), hzeroF]
  by_cases hpend : (bs.take (64 * blockCnt bs)).count false ≤ k
  · rw [if_pos (by omega)]
    dsimp only
    have hplen : (pendingBits bs).length = bs.length - 64 * blockCnt bs :=
      pendingBits_length bs
    have hplen64 : (pendingBits bs).length ≤ 64 := by omega
    have hkr : k - (bs.take (64 * blockCnt bs)).count false <
        (pendingBits bs).count false := by
      rw [pendingBits]
      omega
    have hdc : (pendingBits bs).count false ≤ 64 := by
      have := count_le_len false (pendingBits bs)
      omega
    have h256 : (k - (bs.take (64 * blockCnt bs)).count false) % 256 =
        k - (bs.take (64 * blockCnt bs)).count false := Nat.mod_eq_of_lt (by omega)
    have hmod : rs.lastBlock % 2 ^ 64 = natOfBits (pendingBits bs) := by
      rw [inv.hlastB]
      exact Nat.mod_eq_of_lt (lt_of_lt_of_le (natOfBits_lt _)
        (Nat.pow_le_pow_right (by omega) hplen64))
    have hpow : 2 ^ (pendingBits bs).length * 2 ^ (64 - (pendingBits bs).length) = 2 ^ 64 := by
      rw [← pow_add]
      congr 1
      omega
    have hdist : 2 ^ (pendingBits bs).length * (2 ^ (64 - (pendingBits bs).length) - 1) +
        2 ^ (pendingBits bs).length = 2 ^ 64 := by
      have h1 : 0 < 2 ^ (64 - (pendingBits bs).length) := Nat.pos_pow_of_pos _ (by omega)
      calc 2 ^ (pendingBits bs).length * (2 ^ (64 - (pendingBits bs).length) - 1) +
          2 ^ (pendingBits bs).length
          = 2 ^ (pendingBits bs).length * (2 ^ (64 - (pendingBits bs).length) - 1 + 1) := by
            ring
        _ = 2 ^ (pendingBits bs).length * 2 ^ (64 - (pendingBits bs).length) := by
            rw [Nat.sub_add_cancel h1]
        _ = 2 ^ 64 := hpow
    have hcompl : 2 ^ 64 - 1 - natOfBits (pendingBits bs) =
        natOfBits ((pendingBits bs).map not ++
          List.replicate (64 - (pendingBits bs).length) true) := by
      rw [natOfBits_append, natOfBits_map_not, natOfBits_replicate_true, List.length_map]
      have hx := natOfBits_lt (pendingBits bs)
      omega
    have hlen64 : ((pendingBits bs).map not ++
        List.replicate (64 - (pendingBits bs).length) true).length = 64 := by
      rw [List.length_append, List.length_map, List.length_replicate]
      omega
    rw [hmod, hcompl, selectRaw, Nat.add_sub_cancel, h256]
    have hb := bitsOfNat_natOfBits ((pendingBits bs).map not ++
      List.replicate (64 - (pendingBits bs).length) true)
    rw [hlen64] at hb
    rw [hb]
    have hcnt : ((pendingBits bs).map not).count true = (pendingBits bs).count false := by
      rw [count_map_not, Bool.not_true]
    rw [selIdx_append_left _ _ _ _ (by rw [hcnt]; exact hkr)]
    have hsm2 : selIdx true ((pendingBits bs).map not)
        (k - (bs.take (64 * blockCnt bs)).count false) =
        selIdx false (pendingBits bs)
          (k - (bs.take (64 * blockCnt bs)).count false) := by
      rw [selIdx_map_not, Bool.not_true]
    rw [hsm2, hlbi]
    conv_rhs => rw [← hsplitbs]
    rw [selIdx_append_right _ _ _ _ hpend, List.length_take, Nat.min_eq_left (by omega),
      pendingBits]
  · rw [if_neg (by omega)]
    dsimp only
    have hkF : k < (bs.take (64 * blockCnt bs)).count false := by omega
    have hps : selIdx false bs k = selIdx false (bs.take (64 * blockCnt bs)) k := by
      conv_lhs => rw [← hsplitbs]
      rw [selIdx_append_left _ _ _ _ hkF]
    have hplt : selIdx false bs k < 64 * blockCnt bs := by
      rw [hps]
      have := selIdx_lt_length false (bs.take (64 * blockCnt bs)) k hkF
      rw [List.length_take] at this
      omega
    have hpn : selIdx false bs k < bs.length := selIdx_lt_length false bs k hk
    have hrankp : (bs.take (selIdx false bs k)).count false = k :=
      count_take_selIdx false bs k hk
    have hlow : ∀ i, i ≤ selIdx false bs k → (bs.take i).count false ≤ k :=
      fun i hi => take_count_le_of_le_selIdx false bs k i hk hi
    have hhigh : ∀ i, selIdx false bs k < i → k < (bs.take i).count false :=
      fun i hi => lt_count_take_of_selIdx_lt false bs k i hk hi
    have hStm : selIdx false bs k / 64 < blockCnt bs := by omega
    have hlcpos : largeCnt bs = (bs.length - 1) / 1024 + 1 := by
      rw [largeCnt, if_neg (by omega)]
    have hLt_lt : selIdx false bs k / 1024 < largeCnt bs := by omega
    have hlen_rb : rs.rankBlocks.length = largeCnt bs := by
      rw [inv.hrb]
      simp
    have hlen_rsb : rs.rankSmallBlocks.length = blockCnt bs := by
      rw [inv.hrsb]
      simp
    have hL0 : rs.selectZeroInds.getD (k / 4096) 0 =
        selIdx false bs (4096 * (k / 4096)) / 1024 := by
      rw [inv.hsz, specInds]
      exact getD_map_range _ _ _ _ (by rw [floor]; omega)
    have hL0le : selIdx false bs (4096 * (k / 4096)) / 1024 ≤ selIdx false bs k / 1024 :=
      Nat.div_le_div_right (selIdx_mono false bs _ _ (by omega))
    rw [hL0]
    have hskipL : ∀ L, selIdx false bs (4096 * (k / 4096)) / 1024 ≤ L →
        L < selIdx false bs k / 1024 + 1 →
        ¬k < wrapSub (L * 1024 % 2 ^ 64) (rs.rankBlocks.getD L 0) := by
      intro L h1 h2
      have hLlc : L < largeCnt bs := by omega
      have hLp : 1024 * L ≤ selIdx false bs k := by omega
      rw [getD_rb bs rs inv L hLlc,
        show L * 1024 % 2 ^ 64 = 1024 * L by
          rw [Nat.mod_eq_of_lt (by omega)]
          omega,
        wrapSub_eq _ _ (by rw [oneCnt]; exact count_take_le_idx true bs _)]
      push_neg
      have hzc := zeroCnt_eq bs (1024 * L) (by omega)
      have hlo := hlow (1024 * L) (by omega)
      omega
    have hloopL : select0LLoop rs.rankBlocks k
        (rs.rankBlocks.length - selIdx false bs (4096 * (k / 4096)) / 1024)
        (selIdx false bs (4096 * (k / 4096)) / 1024) = selIdx false bs k / 1024 + 1 := by
      apply select0LLoop_exact rs.rankBlocks k _ _ _ (by omega) (by omega) hskipL
      rcases Nat.eq_or_lt_of_le (show selIdx false bs k / 1024 + 1 ≤ largeCnt bs by omega)
        with heq | hlt
      · left
        omega
      · right
        have hLtlen : 1024 * (selIdx false bs k / 1024 + 1) ≤ bs.length := by
          rw [hlcpos] at hlt
          omega
        rw [getD_rb bs rs inv _ (by omega),
          show (selIdx false bs k / 1024 + 1) * 1024 % 2 ^ 64 =
            1024 * (selIdx false bs k / 1024 + 1) by
            rw [Nat.mod_eq_of_lt (by omega)]
            omega,
          wrapSub_eq _ _ (by rw [oneCnt]; exact count_take_le_idx true bs _)]
        have hzc := zeroCnt_eq bs (1024 * (selIdx false bs k / 1024 + 1)) hLtlen
        have hhi2 : k < (bs.take (1024 * (selIdx false bs k / 1024 + 1))).count false :=
          hhigh _ (by omega)
        omega
    rw [hloopL, wrapSub_eq _ _ (by omega), Nat.add_sub_cancel]
    rw [getD_pb bs rs inv _ hLt_lt, getD_rb bs rs inv _ hLt_lt]
    have hploc : 1024 * (selIdx false bs k / 1024) ≤ selIdx false bs k := by omega
    have hocle : oneCnt bs (1024 * (selIdx false bs k / 1024)) ≤
        1024 * (selIdx false bs k / 1024) := by
      rw [oneCnt]
      exact count_take_le_idx true bs _
    have hzcL := zeroCnt_eq bs (1024 * (selIdx false bs k / 1024)) (by omega)
    have hzkL : (bs.take (1024 * (selIdx false bs k / 1024))).count false ≤ k :=
      hlow _ (by omega)
    rw [show selIdx false bs k / 1024 * 1024 % 2 ^ 64 =
        1024 * (selIdx false bs k / 1024) by
        rw [Nat.mod_eq_of_lt (by omega)]
        omega]
    have hremain : (wrapSub k (1024 * (selIdx false bs k / 1024)) +
        oneCnt bs (1024 * (selIdx false bs k / 1024)) + 1) % 2 ^ 64 =
        k - (bs.take (1024 * (selIdx false bs k / 1024))).count false + 1 := by
      rw [wrapSub]
      by_cases hc : 1024 * (selIdx false bs k / 1024) ≤ k
      · rw [if_pos hc, Nat.mod_eq_of_lt (by omega)]
        omega
      · rw [if_neg hc,
          show 2 ^ 64 + k - 1024 * (selIdx false bs k / 1024) +
            oneCnt bs (1024 * (selIdx false bs k / 1024)) + 1 =
            2 ^ 64 + (k - (bs.take (1024 * (selIdx false bs k / 1024))).count false + 1)
            by omega,
          Nat.add_mod_left]
        exact Nat.mod_eq_of_lt (by omega)
    rw [hremain]
    have hstartc : (bs.take (1024 * (selIdx false bs k / 1024))).count false =
        (bs.take (64 * (selIdx false bs k / 1024 * 16))).count false := by
      rw [show 64 * (selIdx false bs k / 1024 * 16) =
        1024 * (selIdx false bs k / 1024) by omega]
    have hstartp : ptrSum bs (16 * (selIdx false bs k / 1024)) =
        ptrSum bs (selIdx false bs k / 1024 * 16) := by
      rw [show selIdx false bs k / 1024 * 16 = 16 * (selIdx false bs k / 1024) by omega]
    rw [hstartc, hstartp, hlen_rsb]
    have hblockSt : (bs.take (64 * (selIdx false bs k / 64 + 1))).count false =
        (bs.take (64 * (selIdx false bs k / 64))).count false +
          (64 - blockOnes bs (selIdx false bs k / 64)) := by
      rw [show 64 * (selIdx false bs k / 64 + 1) = 64 * (selIdx false bs k / 64) + 64
        by omega]
      exact zeroCnt_block bs _ hStm
    have hstop : k < (bs.take (64 * (selIdx false bs k / 64 + 1))).count false := by
      calc k < (bs.take (selIdx false bs k + 1)).count false := hhigh _ (by omega)
        _ ≤ (bs.take (64 * (selIdx false bs k / 64 + 1))).count false :=
          count_take_mono _ _ _ _ (by omega)
    have hloopS := select0SLoop_spec bs rs inv k (selIdx false bs k / 64) hStm
      (hlow _ (by omega)) hstop
      (blockCnt bs - selIdx false bs k / 1024 * 16) (selIdx false bs k / 1024 * 16)
      (by omega) (by omega)
      (fun i h1 h2 => hlow _ (by omega))
    rw [hloopS]
    dsimp only
    have hcSt64 := blockOnes_le bs (selIdx false bs k / 64) hStm
    have h256b : (k - (bs.take (64 * (selIdx false bs k / 64))).count false + 1) % 256 =
        k - (bs.take (64 * (selIdx false bs k / 64))).count false + 1 := by
      apply Nat.mod_eq_of_lt
      omega
    rw [h256b, getD_rsb bs rs inv _ hStm, inv.hfields _ hStm,
      enumSelect0_enumEncode _ _ (blockBits_count bs _ hStm) (blockBits_val_lt bs _ hStm),
      Nat.add_sub_cancel]
    have hb64 := bitsOfNat_natOfBits (blockBits bs (selIdx false bs k / 64))
    rw [blockBits_length bs _ hStm] at hb64
    rw [hb64]
    have hfinal : selIdx false bs k = 64 * (selIdx false bs k / 64) +
        selIdx false (blockBits bs (selIdx false bs k / 64))
          (k - (bs.take (64 * (selIdx false bs k / 64))).count false) := by
      have hbase : (bs.take (64 * (selIdx false bs k / 64))).count false ≤ k :=
        hlow _ (by omega)
      have hk3 : k - (bs.take (64 * (selIdx false bs k / 64))).count false <
          ((bs.drop (64 * (selIdx false bs k / 64))).take 64).count false := by
        rw [blockZeros_eq bs _ hStm]
        omega
      have hsplit2 : bs.take (64 * (selIdx false bs k / 64)) ++
          bs.drop (64 * (selIdx false bs k / 64)) = bs := List.take_append_drop _ _
      conv_lhs => rw [← hsplit2]
      rw [selIdx_append_right _ _ _ _ hbase, List.length_take, Nat.min_eq_left (by omega)]
      congr 1
      have hsplit3 : (bs.drop (64 * (selIdx false bs k / 64))).take 64 ++
          (bs.drop (64 * (selIdx false bs k / 64))).drop 64 =
          bs.drop (64 * (selIdx false bs k / 64)) := List.take_append_drop _ _
      conv_lhs => rw [← hsplit3]
      rw [selIdx_append_left _ _ _ _ hk3, blockBits]
    conv_rhs => rw [hfinal]
    congr 1
    omega

theorem slice_safe (bs : List Bool) (rs : RSDic) (inv : Inv bs rs) (s : Nat)
    (hs : s < blockCnt bs) :
    sliceAccessSafe rs.bits (ptrSum bs s) (enumCodeLength (blockOnes bs s)) := by
  rcases Nat.eq_zero_or_pos (enumCodeLength (blockOnes bs s)) with h0 | hpos
  · exact Or.inl h0
  · right
    have hle : ptrSum bs s + enumCodeLength (blockOnes bs s) ≤ ptrSum bs (blockCnt bs) := by
      rw [← ptrSum_succ]
      exact ptrSum_mono bs (s + 1) (blockCnt bs) hs
    rw [inv.hblen, floor]
    split
    · omega
    · omega

theorem bit_pointer_eq (bs : List Bool) (rs : RSDic) (inv : Inv bs rs) (pos : Nat)
    (hpos : pos < 64 * blockCnt bs) : bitPointer rs pos = ptrSum bs (pos / 64) := by
  have hmul := blockCnt_mul_le bs
  have hL : pos / 1024 < largeCnt bs := by
    rw [largeCnt, if_neg (by omega)]
    omega
  rw [bitPointer, getD_pb bs rs inv _ hL,
    show 16 * (pos / 1024) = pos / 1024 * 16 by omega]
  have hloop := bitLoop_eq bs rs inv (pos / 64 - pos / 1024 * 16) (pos / 1024 * 16)
    (by omega)
  rw [show pos / 1024 * 16 + (pos / 64 - pos / 1024 * 16) = pos / 64 by omega] at hloop
  exact hloop

theorem select1_safe (bs : List Bool) (rs : RSDic) (inv : Inv bs rs) (k : Nat)
    (hmain : k < wrapSub rs.oneNum rs.lastOneNum) (hn : bs.length < 2 ^ 64) :
    Select1AccessSafe rs k := by
  have hmul := blockCnt_mul_le bs
  have hub := length_upper bs
  have hcountsplit := count_take_add_count_drop true bs (64 * blockCnt bs)
  have honeF : wrapSub rs.oneNum rs.lastOneNum = oneCnt bs (64 * blockCnt bs) := by
    rw [inv.hone, inv.hlastOne, pendingBits, wrapSub_eq _ _ (by omega), oneCnt]
    omega
  rw [honeF] at hmain
  have hk : k < bs.count true := by
    rw [oneCnt] at hmain
    omega
  have hkn : bs.count true ≤ bs.length := count_le_len true bs
  have hkF : k < (bs.take (64 * blockCnt bs)).count true := by
    rw [oneCnt] at hmain
    exact hmain
  have hsplitbs : bs.take (64 * blockCnt bs) ++ bs.drop (64 * blockCnt bs) = bs :=
    List.take_append_drop _ _
  have hps : selIdx true bs k = selIdx true (bs.take (64 * blockCnt bs)) k := by
    conv_lhs => rw [← hsplitbs]
    rw [selIdx_append_left _ _ _ _ hkF]
  have hplt : selIdx true bs k < 64 * blockCnt bs := by
    rw [hps]
    have := selIdx_lt_length true (bs.take (64 * blockCnt bs)) k hkF
    rw [List.length_take] at this
    omega
  have hpn : selIdx true bs k < bs.length := selIdx_lt_length true bs k hk
  have hlow : ∀ i, i ≤ selIdx true bs k → (bs.take i).count true ≤ k :=
    fun i hi => take_count_le_of_le_selIdx true bs k i hk hi
  have hhigh : ∀ i, selIdx true bs k < i → k < (bs.take i).count true :=
    fun i hi => lt_count_take_of_selIdx_lt true bs k i hk hi
  have hStm : selIdx true bs k / 64 < blockCnt bs := by omega
  have hlcpos : largeCnt bs = (bs.length - 1) / 1024 + 1 := by
    rw [largeCnt, if_neg (by omega)]
  have hLt_lt : selIdx true bs k / 1024 < largeCnt bs := by omega
  have hlen_rb : rs.rankBlocks.length = largeCnt bs := by
    rw [inv.hrb]
    simp
  have hlen_rsb : rs.rankSmallBlocks.length = blockCnt bs := by
    rw [inv.hrsb]
    simp
  have hlen_pb : rs.pointerBlocks.length = largeCnt bs := by
    rw [inv.hpb]
    simp
  have hlen_so : rs.selectOneInds.length = floor (bs.count true) 4096 := by
    rw [inv.hso, specInds]
    simp
  have hL0 : rs.selectOneInds.getD (k / 4096) 0 =
      selIdx true bs (4096 * (k / 4096)) / 1024 := by
    rw [inv.hso, specInds]
    exact getD_map_range _ _ _ _ (by rw [floor]; omega)
  have hL0le : selIdx true bs (4096 * (k / 4096)) / 1024 ≤ selIdx true bs k / 1024 :=
    Nat.div_le_div_right (selIdx_mono true bs _ _ (by omega))
  have hskipL : ∀ L, selIdx true bs (4096 * (k / 4096)) / 1024 ≤ L →
      L < selIdx true bs k / 1024 + 1 → ¬k < rs.rankBlocks.getD L 0 := by
    intro L h1 h2
    rw [getD_rb bs rs inv L (by omega)]
    push_neg
    apply hlow
    omega
  have hloopL : select1LLoop rs.rankBlocks k
      (rs.rankBlocks.length - selIdx true bs (4096 * (k / 4096)) / 1024)
      (selIdx true bs (4096 * (k / 4096)) / 1024) = selIdx true bs k / 1024 + 1 := by
    apply select1LLoop_exact rs.rankBlocks k _ _ _ (by omega) (by omega) hskipL
    rcases Nat.eq_or_lt_of_le (show selIdx true bs k / 1024 + 1 ≤ largeCnt bs by omega)
      with heq | hlt
    · left
      omega
    · right
      rw [getD_rb bs rs inv _ (by omega)]
      calc k < (bs.take (selIdx true bs k + 1)).count true := hhigh _ (by omega)
        _ ≤ (bs.take (1024 * (selIdx true bs k / 1024 + 1))).count true :=
          count_take_mono _ _ _ _ (by omega)
  rw [Select1AccessSafe]
  rw [hL0, hloopL, wrapSub_eq _ _ (by omega), Nat.add_sub_cancel]
  rw [getD_pb bs rs inv _ hLt_lt, getD_rb bs rs inv _ hLt_lt]
  rw [wrapSub_eq _ _ (by apply hlow; omega)]
  have hmod64 : (k - oneCnt bs (1024 * (selIdx true bs k / 1024)) + 1) % 2 ^ 64 =
      k - oneCnt bs (1024 * (selIdx true bs k / 1024)) + 1 := by
    apply Nat.mod_eq_of_lt
    omega
  rw [hmod64]
  have hstartc : oneCnt bs (1024 * (selIdx true bs k / 1024)) =
      oneCnt bs (64 * (selIdx true bs k / 1024 * 16)) := by
    congr 1
    omega
  have hstartp : ptrSum bs (16 * (selIdx true bs k / 1024)) =
      ptrSum bs (selIdx true bs k / 1024 * 16) := by
    congr 1
    omega
  rw [hstartc, hstartp, hlen_rsb]
  have hstop : k < oneCnt bs (64 * (selIdx true bs k / 64 + 1)) := by
    calc k < (bs.take (selIdx true bs k + 1)).count true := hhigh _ (by omega)
      _ ≤ oneCnt bs (64 * (selIdx true bs k / 64 + 1)) :=
        count_take_mono _ _ _ _ (by omega)
  have hloopS := select1SLoop_spec bs rs inv k (selIdx true bs k / 64) hStm
    (by apply hlow; omega) hstop
    (blockCnt bs - selIdx true bs k / 1024 * 16) (selIdx true bs k / 1024 * 16)
    (by omega) (by omega)
    (by
      intro i h1 h2
      apply hlow
      omega)
  rw [hloopS]
  dsimp only
  refine ⟨by rw [hlen_so, floor]; omega, by omega, by rw [hlen_pb]; omega,
    by rw [hlen_rb]; omega, by omega, ?_⟩
  rw [getD_rsb bs rs inv _ hStm]
  exact slice_safe bs rs inv _ hStm

theorem select0_safe (bs : List Bool) (rs : RSDic) (inv : Inv bs rs) (k : Nat)
    (hmain : k < wrapSub rs.zeroNum rs.lastZeroNum) (hn : bs.length < 2 ^ 64) :
    Select0AccessSafe rs k := by
  have hmul := blockCnt_mul_le bs
  have hub := length_upper bs
  have hcsplit0 := count_take_add_count_drop false bs (64 * blockCnt bs)
  have hzeroF : wrapSub rs.zeroNum rs.lastZeroNum =
      (bs.take (64 * blockCnt bs)).count false := by
    rw [inv.hzero, inv.hlastZero, pendingBits, wrapSub_eq _ _ (by omega)]
    omega
  rw [hzeroF] at hmain
  have hk : k < bs.count false := by omega
  have hkn : bs.count false ≤ bs.length := count_le_len false bs
  have hsplitbs : bs.take (64 * blockCnt bs) ++ bs.drop (64 * blockCnt bs) = bs :=
    List.take_append_drop _ _
  have hps : selIdx false bs k = selIdx false (bs.take (64 * blockCnt bs)) k := by
    conv_lhs => rw [← hsplitbs]
    rw [selIdx_append_left _ _ _ _ hmain]
  have hplt : selIdx false bs k < 64 * blockCnt bs := by
    rw [hps]
    have := selIdx_lt_length false (bs.take (64 * blockCnt bs)) k hmain
    rw [List.length_take] at this
    omega
  have hpn : selIdx false bs k < bs.length := selIdx_lt_length false bs k hk
  have hlow : ∀ i, i ≤ selIdx false bs k → (bs.take i).count false ≤ k :=
    fun i hi => take_count_le_of_le_selIdx false bs k i hk hi
  have hhigh : ∀ i, selIdx false bs k < i → k < (bs.take i).count false :=
    fun i hi => lt_count_take_of_selIdx_lt false bs k i hk hi
  have hStm : selIdx false bs k / 64 < blockCnt bs := by omega
  have hlcpos : largeCnt bs = (bs.length - 1) / 1024 + 1 := by
    rw [largeCnt, if_neg (by omega)]
  have hLt_lt : selIdx false bs k / 1024 < largeCnt bs := by omega
  have hlen_rb : rs.rankBlocks.length = largeCnt bs := by
    rw [inv.hrb]
    simp
  have hlen_rsb : rs.rankSmallBlocks.length = blockCnt bs := by
    rw [inv.hrsb]
    simp
  have hlen_pb : rs.pointerBlocks.length = largeCnt bs := by
    rw [inv.hpb]
    simp
  have hlen_sz : rs.selectZeroInds.length = floor (bs.count false) 4096 := by
    rw [inv.hsz, specInds]
    simp
  have hL0 : rs.selectZeroInds.getD (k / 4096) 0 =
      selIdx false bs (4096 * (k / 4096)) / 1024 := by
    rw [inv.hsz, specInds]
    exact getD_map_range _ _ _ _ (by rw [floor]; omega)
  have hL0le : selIdx false bs (4096 * (k / 4096)) / 1024 ≤ selIdx false bs k / 1024 :=
    Nat.div_le_div_right (selIdx_mono false bs _ _ (by omega))
  have hskipL : ∀ L, selIdx false bs (4096 * (k / 4096)) / 1024 ≤ L →
      L < selIdx false bs k / 1024 + 1 →
      ¬k < wrapSub (L * 1024 % 2 ^ 64) (rs.rankBlocks.getD L 0) := by
    intro L h1 h2
    have hLlc : L < largeCnt bs := by omega
    have hLp : 1024 * L ≤ selIdx false bs k := by omega
    rw [getD_rb bs rs inv L hLlc,
      show L * 1024 % 2 ^ 64 = 1024 * L by
        rw [Nat.mod_eq_of_lt (by omega)]
        omega,
      wrapSub_eq _ _ (by rw [oneCnt]; exact count_take_le_idx true bs _)]
    push_neg
    have hzc := zeroCnt_eq bs (1024 * L) (by omega)
    have hlo := hlow (1024 * L) (by omega)
    omega
  have hloopL : select0LLoop rs.rankBlocks k
      (rs.rankBlocks.length - selIdx false bs (4096 * (k / 4096)) / 1024)
      (selIdx false bs (4096 * (k / 4096)) / 1024) = selIdx false bs k / 1024 + 1 := by
    apply select0LLoop_exact rs.rankBlocks k _ _ _ (by omega) (by omega) hskipL
    rcases Nat.eq_or_lt_of_le (show selIdx false bs k / 1024 + 1 ≤ largeCnt bs by omega)
      with heq | hlt
    · left
      omega
    · right
      have hLtlen : 1024 * (selIdx false bs k / 1024 + 1) ≤ bs.length := by
        rw [hlcpos] at hlt
        omega
      rw [getD_rb bs rs inv _ (by omega),
        show (selIdx false bs k / 1024 + 1) * 1024 % 2 ^ 64 =
          1024 * (selIdx false bs k / 1024 + 1) by
          rw [Nat.mod_eq_of_lt (by omega)]
          omega,
        wrapSub_eq _ _ (by rw [oneCnt]; exact count_take_le_idx true bs _)]
      have hzc := zeroCnt_eq bs (1024 * (selIdx false bs k / 1024 + 1)) hLtlen
      have hhi2 : k < (bs.take (1024 * (selIdx false bs k / 1024 + 1))).count false :=
        hhigh _ (by omega)
      omega
  rw [Select0AccessSafe]
  rw [hL0, hloopL, wrapSub_eq _ _ (by omega), Nat.add_sub_cancel]
  rw [getD_pb bs rs inv _ hLt_lt, getD_rb bs rs inv _ hLt_lt]
  have hploc : 1024 * (selIdx false bs k / 1024) ≤ selIdx false bs k := by omega
  have hocle : oneCnt bs (1024 * (selIdx false bs k / 1024)) ≤
      1024 * (selIdx false bs k / 1024) := by
    rw [oneCnt]
    exact count_take_le_idx true bs _
  have hzcL := zeroCnt_eq bs (1024 * (selIdx false bs k / 1024)) (by omega)
  have hzkL : (bs.take (1024 * (selIdx false bs k / 1024))).count false ≤ k :=
    hlow _ (by omega)
  rw [show selIdx false bs k / 1024 * 1024 % 2 ^ 64 =
      1024 * (selIdx false bs k / 1024) by
      rw [Nat.mod_eq_of_lt (by omega)]
      omega]
  have hremain : (wrapSub k (1024 * (selIdx false bs k / 1024)) +
      oneCnt bs (1024 * (selIdx false bs k / 1024)) + 1) % 2 ^ 64 =
      k - (bs.take (1024 * (selIdx false bs k / 1024))).count false + 1 := by
    rw [wrapSub]
    by_cases hc : 1024 * (selIdx false bs k / 1024) ≤ k
    · rw [if_pos hc, Nat.mod_eq_of_lt (by omega)]
      omega
    · rw [if_neg hc,
        show 2 ^ 64 + k - 1024 * (selIdx false bs k / 1024) +
          oneCnt bs (1024 * (selIdx false bs k / 1024)) + 1 =
          2 ^ 64 + (k - (bs.take (1024 * (selIdx false bs k / 1024))).count false + 1)
          by omega,
        Nat.add_mod_left]
      exact Nat.mod_eq_of_lt (by omega)
  rw [hremain]
  have hstartc : (bs.take (1024 * (selIdx false bs k / 1024))).count false =
      (bs.take (64 * (selIdx false bs k / 1024 * 16))).count false := by
    rw [show 64 * (selIdx false bs k / 1024 * 16) =
      1024 * (selIdx false bs k / 1024) by omega]
  have hstartp : ptrSum bs (16 * (selIdx false bs k / 1024)) =
      ptrSum bs (selIdx false bs k / 1024 * 16) := by
    rw [show selIdx false bs k / 1024 * 16 = 16 * (selIdx false bs k / 1024) by omega]
  rw [hstartc, hstartp, hlen_rsb]
  have hblockSt : (bs.take (64 * (selIdx false bs k / 64 + 1))).count false =
      (bs.take (64 * (selIdx false bs k / 64))).count false +
        (64 - blockOnes bs (selIdx false bs k / 64)) := by
    rw [show 64 * (selIdx false bs k / 64 + 1) = 64 * (selIdx false bs k / 64) + 64
      by omega]
    exact zeroCnt_block bs _ hStm
  have hstop : k < (bs.take (64 * (selIdx false bs k / 64 + 1))).count false := by
    calc k < (bs.take (selIdx false bs k + 1)).count false := hhigh _ (by omega)
      _ ≤ (bs.take (64 * (selIdx false bs k / 64 + 1))).count false :=
        count_take_mono _ _ _ _ (by omega)
  have hloopS := select0SLoop_spec bs rs inv k (selIdx false bs k / 64) hStm
    (hlow _ (by omega)) hstop
    (blockCnt bs - selIdx false bs k / 1024 * 16) (selIdx false bs k / 1024 * 16)
    (by omega) (by omega)
    (fun i h1 h2 => hlow _ (by omega))
  rw [hloopS]
  dsimp only
  refine ⟨by rw [hlen_sz, floor]; omega, by omega, by rw [hlen_pb]; omega,
    by rw [hlen_rb]; omega, by omega, ?_⟩
  rw [getD_rsb bs rs inv _ hStm]
  exact slice_safe bs rs inv _ hStm

theorem writeBlock_keeps (rs : RSDic) :
    (writeBlock rs).selectOneInds = rs.selectOneInds ∧
    (writeBlock rs).selectZeroInds = rs.selectZeroInds ∧
    (writeBlock rs).num = rs.num ∧ (writeBlock rs).oneNum = rs.oneNum ∧
    (writeBlock rs).zeroNum = rs.zeroNum := by
  by_cases hp : rs.num > 0 <;> by_cases hq : rs.num % 1024 = 0 <;>
    simp [writeBlock, hp, hq]

theorem pushBack_selectInds (rs : RSDic) (b : Bool) :
    (PushBack rs b).selectOneInds =
      (if b = true ∧ rs.oneNum % 4096 = 0 then rs.selectOneInds ++ [rs.num / 1024]
       else rs.selectOneInds) ∧
    (PushBack rs b).selectZeroInds =
      (if b = false ∧ rs.zeroNum % 4096 = 0 then rs.selectZeroInds ++ [rs.num / 1024]
       else rs.selectZeroInds) := by
  obtain ⟨h1, h2, h3, h4, h5⟩ := writeBlock_keeps rs
  cases b
  · by_cases h0 : rs.zeroNum % 4096 = 0 <;> by_cases hf : rs.num % 64 = 0 <;>
      simp [PushBack, hf, h0, h1, h2, h3, h4, h5]
  · by_cases ho : rs.oneNum % 4096 = 0 <;> by_cases hf : rs.num % 64 = 0 <;>
      simp [PushBack, hf, ho, h1, h2, h3, h4, h5]

theorem count_replicate_self_eq (b : Bool) (n : Nat) :
    (List.replicate n b).count b = n := by
  induction n with
  | zero => simp
  | succ n ih => rw [List.replicate_succ, List.count_cons_self, ih]

theorem selIdx_replicate (b : Bool) (n k : Nat) :
    selIdx b (List.replicate n b) k = min k n := by
  induction n generalizing k with
  | zero => simp [selIdx]
  | succ n ih =>
    rw [List.replicate_succ, selIdx, if_pos rfl]
    rcases Nat.eq_zero_or_pos k with rfl | hk
    · simp
    · rw [if_neg (by omega), ih]
      omega

/-- C1: for every sequence of `PushBack` calls with bits `b0 … b(n-1)`
starting from `New`, and every `i < n`, `Bit i` returns `bi`. -/
theorem claim_C1 (bs : List Bool) (i : Nat) (h : i < bs.length) :
    Bit (rsdicOf bs) i = bs.getD i false :=
  bit_correct bs (rsdicOf bs) (inv_rsdicOf bs) i h

theorem claim_C1_witness :
    1 < [true, false, true].length ∧
    Bit (rsdicOf [true, false, true]) 1 = [true, false, true].getD 1 false :=
  ⟨by decide, claim_C1 [true, false, true] 1 (by decide)⟩

/-- C2: after pushing `bs` from `New`, `Rank pos b` counts the positions
`j < pos` holding `b` (for every `pos`, in particular every `pos ≤ n`), and
at any `pos = n + extra ≥ n` it clamps to the total count of `b`. -/
theorem claim_C2 (bs : List Bool) (pos extra : Nat) (b : Bool) :
    Rank (rsdicOf bs) pos b = (bs.take pos).count b ∧
    Rank (rsdicOf bs) (bs.length + extra) b = bs.count b := by
  refine ⟨rank_correct bs (rsdicOf bs) (inv_rsdicOf bs) pos b, ?_⟩
  rw [rank_correct bs (rsdicOf bs) (inv_rsdicOf bs) (bs.length + extra) b,
    List.take_of_length_le (by omega)]

/-- C3: after pushing `bs` from `New`, for every `b` and every
`k < count of b`, `Bit (Select k b) = b` and `Rank (Select k b) b = k`. -/
theorem claim_C3 (bs : List Bool) (b : Bool) (k : Nat) (hk : k < bs.count b)
    (hn : bs.length < 2 ^ 64) :
    Bit (rsdicOf bs) (Select (rsdicOf bs) k b) = b ∧
    Rank (rsdicOf bs) (Select (rsdicOf bs) k b) b = k := by
  have inv := inv_rsdicOf bs
  have hsel : Select (rsdicOf bs) k b = selIdx b bs k := by
    cases b
    · rw [Select, if_neg (by simp)]
      exact select0_correct bs _ inv k hk hn
    · rw [Select, if_pos rfl]
      exact select1_correct bs _ inv k hk hn
  have hlt := selIdx_lt_length b bs k hk
  constructor
  · rw [hsel, bit_correct bs _ inv _ hlt]
    exact getD_selIdx b bs k false hk
  · rw [hsel, rank_correct bs _ inv _ b, count_take_selIdx b bs k hk]

theorem claim_C3_witness :
    1 < [true, false, true].count true ∧ [true, false, true].length < 2 ^ 64 ∧
    (Bit (rsdicOf [true, false, true]) (Select (rsdicOf [true, false, true]) 1 true) =
      true ∧
     Rank (rsdicOf [true, false, true]) (Select (rsdicOf [true, false, true]) 1 true)
      true = 1) :=
  ⟨by decide, by decide, claim_C3 [true, false, true] true 1 (by decide) (by decide)⟩

/-- C4: after pushing `bs` from `New`, for every `b` and every
`k = count of b + extra` at or beyond the count of `b`-bits,
`Select k b` returns `num`; and on the empty dictionary
`Select 0 true = 0`. -/
theorem claim_C4 (bs : List Bool) (b : Bool) (extra : Nat) :
    Select (rsdicOf bs) (bs.count b + extra) b = bs.length ∧
    Select (rsdicOf []) 0 true = 0 := by
  have inv := inv_rsdicOf bs
  constructor
  · cases b
    · rw [Select, if_neg (by simp), Select0, if_pos (by rw [inv.hzero]; omega), inv.hnum]
    · rw [Select, if_pos rfl, Select1, if_pos (by rw [inv.hone]; omega), inv.hnum]
  · decide

/-- C5: unmarshalling the output of marshalling a built dictionary
reconstructs the same thirteen fields, hence the same dictionary, so every
`Bit`, `Rank`, `Select` and `BitAndRank` query answers identically. -/
theorem claim_C5 (bs : List Bool) (pos k : Nat) (b : Bool) :
    UnmarshalBinary (MarshalBinary (rsdicOf bs)) = some (rsdicOf bs) ∧
    ((UnmarshalBinary (MarshalBinary (rsdicOf bs))).map fun r => Bit r pos) =
      some (Bit (rsdicOf bs) pos) ∧
    ((UnmarshalBinary (MarshalBinary (rsdicOf bs))).map fun r => Rank r pos b) =
      some (Rank (rsdicOf bs) pos b) ∧
    ((UnmarshalBinary (MarshalBinary (rsdicOf bs))).map fun r => Select r k b) =
      some (Select (rsdicOf bs) k b) ∧
    ((UnmarshalBinary (MarshalBinary (rsdicOf bs))).map fun r => BitAndRank r pos) =
      some (BitAndRank (rsdicOf bs) pos) :=
  ⟨rfl, rfl, rfl, rfl, rfl⟩

/-- C6 (corrected): after every build `num = 64 · len(rankSmallBlocks) +
(lastOneNum + lastZeroNum)`, but the pending tally equals
`(num - 1) % 64 + 1` on nonempty dictionaries: it is `64`, not
`num mod 64 = 0`, whenever `num` is a positive multiple of 64, because the
full block is flushed only at the start of the next `PushBack`. -/
theorem claim_C6 (bs : List Bool) :
    (rsdicOf bs).num = 64 * (rsdicOf bs).rankSmallBlocks.length +
      ((rsdicOf bs).lastOneNum + (rsdicOf bs).lastZeroNum) ∧
    (rsdicOf bs).lastOneNum + (rsdicOf bs).lastZeroNum =
      (if bs.length = 0 then 0 else (bs.length - 1) % 64 + 1) := by
  have inv := inv_rsdicOf bs
  have hmul := blockCnt_mul_le bs
  have hpS := count_true_add_count_false (pendingBits bs)
  have hpl := pendingBits_length bs
  have hbc : blockCnt bs = if bs.length = 0 then 0 else (bs.length - 1) / 64 := rfl
  rw [inv.hnum, inv.hlastOne, inv.hlastZero, inv.hrsb, length_map_range]
  constructor
  · omega
  · rcases Nat.eq_zero_or_pos bs.length with h0 | h0
    · rw [if_pos h0]
      rw [if_pos h0] at hbc
      omega
    · rw [if_neg (by omega)]
      rw [if_neg (by omega)] at hbc
      omega

set_option maxRecDepth 100000

theorem claim_C6_counterexample :
    ¬((rsdicOf (List.replicate 64 false)).lastOneNum +
        (rsdicOf (List.replicate 64 false)).lastZeroNum =
      (rsdicOf (List.replicate 64 false)).num % 64) := by decide

/-- C7: during `PushBack`, `num / 1024` is appended to `selectOneInds`
exactly when the pushed bit is a one and `oneNum % 4096 = 0` before the
increment (symmetrically for zeros and `selectZeroInds`); after pushing
5000 ones from `New`, `selectOneInds` is `[0, 4]` (2 entries), both valid
indices into the 5-entry `rankBlocks`, and `Select 4096 true = 4096`. -/
theorem claim_C7 :
    (∀ (rs : RSDic) (b : Bool),
      (PushBack rs b).selectOneInds =
        (if b = true ∧ rs.oneNum % 4096 = 0 then rs.selectOneInds ++ [rs.num / 1024]
         else rs.selectOneInds) ∧
      (PushBack rs b).selectZeroInds =
        (if b = false ∧ rs.zeroNum % 4096 = 0 then rs.selectZeroInds ++ [rs.num / 1024]
         else rs.selectZeroInds)) ∧
    (rsdicOf (List.replicate 5000 true)).selectOneInds = [0, 4] ∧
    (rsdicOf (List.replicate 5000 true)).rankBlocks.length = 5 ∧
    (∀ x ∈ (rsdicOf (List.replicate 5000 true)).selectOneInds,
      x < (rsdicOf (List.replicate 5000 true)).rankBlocks.length) ∧
    Select (rsdicOf (List.replicate 5000 true)) 4096 true = 4096 := by
  have inv := inv_rsdicOf (List.replicate 5000 true)
  have hcnt : (List.replicate 5000 true).count true = 5000 :=
    count_replicate_self_eq true 5000
  have hlen : (List.replicate 5000 true).length = 5000 := by
    rw [List.length_replicate]
  have hso : (rsdicOf (List.replicate 5000 true)).selectOneInds = [0, 4] := by
    rw [inv.hso, specInds, hcnt, show floor 5000 4096 = 2 by decide,
      show List.range 2 = [0, 1] by decide]
    simp only [List.map_cons, List.map_nil]
    rw [show 4096 * 0 = 0 by decide, show 4096 * 1 = 4096 by decide,
      selIdx_replicate, selIdx_replicate]
    decide
  have hrbLen : (rsdicOf (List.replicate 5000 true)).rankBlocks.length = 5 := by
    rw [inv.hrb, length_map_range, largeCnt, hlen]
    decide
  refine ⟨pushBack_selectInds, hso, hrbLen, ?_, ?_⟩
  · rw [hso, hrbLen]
    decide
  · rw [Select, if_pos rfl,
      select1_correct _ _ inv 4096 (by rw [hcnt]; decide) (by rw [hlen]; decide),
      selIdx_replicate]
    decide

/-- C8 (corrected): after pushing 64 ones then 64 zeros, the six query
values hold, `bits` is empty and `codeLen = 0`, and exactly ONE small
block has been coded — the all-ones block, popcount 64, code length 0.
The all-zeros block is still pending, so no block with popcount 0 has
been coded. -/
theorem claim_C8 :
    Rank (rsdicOf (List.replicate 64 true ++ List.replicate 64 false)) 64 true = 64 ∧
    Rank (rsdicOf (List.replicate 64 true ++ List.replicate 64 false)) 128 true = 64 ∧
    Select (rsdicOf (List.replicate 64 true ++ List.replicate 64 false)) 63 true = 63 ∧
    Select (rsdicOf (List.replicate 64 true ++ List.replicate 64 false)) 64 true = 128 ∧
    Select (rsdicOf (List.replicate 64 true ++ List.replicate 64 false)) 0 false = 64 ∧
    Select (rsdicOf (List.replicate 64 true ++ List.replicate 64 false)) 63 false = 127 ∧
    (rsdicOf (List.replicate 64 true ++ List.replicate 64 false)).bits = [] ∧
    (rsdicOf (List.replicate 64 true ++ List.replicate 64 false)).codeLen = 0 ∧
    (rsdicOf (List.replicate 64 true ++ List.replicate 64 false)).rankSmallBlocks =
      [64] ∧
    enumCodeLength 64 = 0 := by decide

theorem claim_C8_counterexample :
    ¬((rsdicOf (List.replicate 64 true ++
        List.replicate 64 false)).rankSmallBlocks.count 0 = 1) := by decide

/-- C9: for every built dictionary and every position whatsoever, `Bit`
and `BitAndRank` touch no out-of-range index: either `pos ≥ lastBlockInd`
and only the scalar `lastBlock` is read, or `pos < num` and every index
into `pointerBlocks`, `rankBlocks`, `rankSmallBlocks` and `bits` is in
range. -/
theorem claim_C9 (bs : List Bool) (pos : Nat) :
    BitAccessSafe (rsdicOf bs) pos ∧ BitAndRankAccessSafe (rsdicOf bs) pos := by
  have inv := inv_rsdicOf bs
  have hlbi := lastBlockInd_eq bs (rsdicOf bs) inv
  have hmul := blockCnt_mul_le bs
  by_cases hge : 64 * blockCnt bs ≤ pos
  · have hL : isLastBlock (rsdicOf bs) pos = true := by
      rw [isLastBlock, hlbi]
      simpa using hge
    exact ⟨Or.inl hL, Or.inl hL⟩
  · push_neg at hge
    have hSm : pos / 64 < blockCnt bs := by omega
    have hL : pos / 1024 < largeCnt bs := by
      rw [largeCnt, if_neg (by omega)]
      omega
    have hnum : pos < (rsdicOf bs).num := by
      rw [inv.hnum]
      omega
    have hpb : pos / 1024 < (rsdicOf bs).pointerBlocks.length := by
      rw [inv.hpb, length_map_range]
      exact hL
    have hrb : pos / 1024 < (rsdicOf bs).rankBlocks.length := by
      rw [inv.hrb, length_map_range]
      exact hL
    have hrsb : pos / 64 < (rsdicOf bs).rankSmallBlocks.length := by
      rw [inv.hrsb, length_map_range]
      exact hSm
    have hslice : sliceAccessSafe (rsdicOf bs).bits (bitPointer (rsdicOf bs) pos)
        (enumCodeLength ((rsdicOf bs).rankSmallBlocks.getD (pos / 64) 0)) := by
      rw [bit_pointer_eq bs _ inv pos (by omega), getD_rsb bs _ inv _ hSm]
      exact slice_safe bs _ inv _ hSm
    exact ⟨Or.inr ⟨hnum, hpb, hrsb, hslice⟩, Or.inr ⟨hnum, hpb, hrb, hrsb, hslice⟩⟩

/-- C10: for every built dictionary and every rank handled by the main
path of `Select1` (any `k` below `oneNum - lastOneNum`), the sample index
`k / 4096` is in range and the large-block scan, its decrement, the
small-block scan exit and the final slice read all stay in bounds;
symmetrically for `Select0`. -/
theorem claim_C10 (bs : List Bool) (k : Nat) (hn : bs.length < 2 ^ 64) :
    (k < wrapSub (rsdicOf bs).oneNum (rsdicOf bs).lastOneNum →
      Select1AccessSafe (rsdicOf bs) k) ∧
    (k < wrapSub (rsdicOf bs).zeroNum (rsdicOf bs).lastZeroNum →
      Select0AccessSafe (rsdicOf bs) k) :=
  ⟨fun h => select1_safe bs _ (inv_rsdicOf bs) k h hn,
   fun h => select0_safe bs _ (inv_rsdicOf bs) k h hn⟩

theorem claim_C10_witness :
    (List.replicate 65 true ++ List.replicate 65 false).length < 2 ^ 64 ∧
    0 < wrapSub (rsdicOf (List.replicate 65 true ++ List.replicate 65 false)).oneNum
      (rsdicOf (List.replicate 65 true ++ List.replicate 65 false)).lastOneNum ∧
    0 < wrapSub (rsdicOf (List.replicate 65 true ++ List.replicate 65 false)).zeroNum
      (rsdicOf (List.replicate 65 true ++ List.replicate 65 false)).lastZeroNum ∧
    Select1AccessSafe (rsdicOf (List.replicate 65 true ++ List.replicate 65 false)) 0 ∧
    Select0AccessSafe (rsdicOf (List.replicate 65 true ++ List.replicate 65 false)) 0 :=
  ⟨by decide, by decide, by decide,
   (claim_C10 (List.replicate 65 true ++ List.replicate 65 false) 0 (by decide)).1
     (by decide),
   (claim_C10 (List.replicate 65 true ++ List.replicate 65 false) 0 (by decide)).2
     (by decide)⟩

end Rsdic
